import Mathlib

/-
Verification of the date-puzzle solver (src/entity.rs, src/backtrack.rs,
src/main.rs) against its specification.

Modeling conventions:
* Rust `i32` coordinates are modeled as unbounded `Int` (the puzzle domain
  is far from the 32-bit boundary; `rev_i32_order` is the source's
  fixed-width-safe spelling of `y ↦ 1 - y`).
* Rust `u64` bit masks are modeled as `Nat`; the one place where 64-bit
  overflow matters (`enc.overflowing_shl(1)` in `EncodingBoard::new`) is
  modeled with an explicit `% 2 ^ 64`.
* Rust panics (index out of range, `panic!`, `expect`) are modeled by
  `Option`/`none` results.
* The iterative `backtrack` loop is modeled as a step function `btStep`
  driven by fuel (`btRun`); a separate termination bound is proved, so
  fuel exhaustion can be discharged.
-/

namespace DatePuzzle

/-- Integer 2D point (struct `Point` in src/entity.rs), with unbounded
coordinates standing in for `i32`. -/
structure Point where
  x : Int
  y : Int
deriving DecidableEq

/-- Function `Point::rotated_ccw_90` in src/entity.rs: `(x, y) ↦ (-y, x)`. -/
def Point.rotated_ccw_90 (p : Point) : Point := ⟨-p.y, p.x⟩

/-- Function `Point::reflected_over_vert` in src/entity.rs: `(x, y) ↦ (-x, y)`. -/
def Point.reflected_over_vert (p : Point) : Point := ⟨-p.x, p.y⟩

/-- Componentwise addition (`impl Add for Point` in src/entity.rs). -/
def Point.add (p q : Point) : Point := ⟨p.x + q.x, p.y + q.y⟩

/-- A `Tile` is its vector of points (field `points` of struct `Tile`). -/
abbrev Tile := List Point

/-- Function `Tile::new`: panics (here `none`) unless some point is the origin. -/
def Tile.new (pts : List Point) : Option Tile :=
  if pts.any (fun p => p.x == 0 && p.y == 0) then some pts else none

/-- Function `Tile::rotate_ccw_90`: rotate every point of the tile. -/
def Tile.rotate_ccw_90 (t : Tile) : Tile := t.map Point.rotated_ccw_90

/-- Function `Tile::reflect_over_vert`: reflect every point of the tile. -/
def Tile.reflect_over_vert (t : Tile) : Tile := t.map Point.reflected_over_vert

/-- Function `Tile::offset_points`: every point translated by `offset`. -/
def Tile.offset_points (t : Tile) (offset : Point) : List Point :=
  t.map (fun p => p.add offset)

/-- Axis-aligned box with inclusive corners (struct `AABB` in src/entity.rs). -/
structure AABB where
  min : Point
  max : Point
deriving DecidableEq

/-- Function `AABB::new`: asserts `min.x <= max.x && min.y <= max.y`
(assertion failure modeled as `none`). -/
def AABB.new (mn mx : Point) : Option AABB :=
  if mn.x ≤ mx.x ∧ mn.y ≤ mx.y then some ⟨mn, mx⟩ else none

/-- The inclusive integer range `a..=b` of the source, as a list. -/
def intRange (a b : Int) : List Int :=
  (List.range (b + 1 - a).toNat).map (fun (k : Nat) => a + (k : Int))

/-- Function `AABB::points` in src/entity.rs:
`(min.x..=max.x).flat_map(|x| (min.y..=max.y).map(|y| Point { x, y }))`.
The outer iteration is over `x`, the inner one over `y`. -/
def AABB.points (r : AABB) : List Point :=
  (intRange r.min.x r.max.x).flatMap
    (fun x => (intRange r.min.y r.max.y).map (fun y => ⟨x, y⟩))

/-! ### Basic facts about the geometry layer -/

theorem mem_intRange {a b c : Int} : c ∈ intRange a b ↔ a ≤ c ∧ c ≤ b := by
  unfold intRange
  simp only [List.mem_map, List.mem_range]
  constructor
  · rintro ⟨k, hk, rfl⟩
    omega
  · rintro ⟨h1, h2⟩
    exact ⟨(c - a).toNat, by omega, by omega⟩

theorem flatMap_range_prod {α : Type} (f : Nat → Nat → α) (w h : Nat) (hh : 0 < h) :
    (List.range w).flatMap (fun i => (List.range h).map (fun j => f i j)) =
    (List.range (w * h)).map (fun t => f (t / h) (t % h)) := by
  induction w with
  | zero => simp
  | succ w ih =>
    rw [List.range_succ, Nat.succ_mul, List.range_add, List.flatMap_append, ih,
      List.map_append, List.map_map, List.flatMap_cons, List.flatMap_nil,
      List.append_nil]
    congr 1
    apply List.map_congr_left
    intro j hj
    rw [List.mem_range] at hj
    have hdiv : (w * h + j) / h = w := by
      rw [Nat.mul_comm w h, Nat.mul_add_div hh, Nat.div_eq_of_lt hj, Nat.add_zero]
    have hmod : (w * h + j) % h = j := by
      rw [Nat.mul_comm w h, Nat.mul_add_mod, Nat.mod_eq_of_lt hj]
    simp [hdiv, hmod]

/-- C4 (amended): for corners with `min.x ≤ max.x` and `min.y ≤ max.y`,
`AABB::points` yields exactly the integer points of the rectangle, but in
column-major order — `y` varies fastest (the point at position `t` is
`(min.x + t / height, min.y + t % height)`), all `y` values for one `x`
coming before the next `x`. -/
theorem aabb_points_column_major (mn mx : Point)
    (hx : mn.x ≤ mx.x) (hy : mn.y ≤ mx.y) :
    (AABB.points ⟨mn, mx⟩ =
      (List.range ((mx.x + 1 - mn.x).toNat * (mx.y + 1 - mn.y).toNat)).map
        (fun t => ⟨mn.x + ((t / (mx.y + 1 - mn.y).toNat : Nat) : Int),
                   mn.y + ((t % (mx.y + 1 - mn.y).toNat : Nat) : Int)⟩)) ∧
    (∀ p : Point, p ∈ AABB.points ⟨mn, mx⟩ ↔
      (mn.x ≤ p.x ∧ p.x ≤ mx.x ∧ mn.y ≤ p.y ∧ p.y ≤ mx.y)) := by
  constructor
  · have hh : 0 < (mx.y + 1 - mn.y).toNat := by omega
    unfold AABB.points intRange
    rw [List.flatMap_map]
    simp only [List.map_map, Function.comp_def]
    exact flatMap_range_prod
      (fun i j => (⟨mn.x + (i : Int), mn.y + (j : Int)⟩ : Point)) _ _ hh
  · intro p
    unfold AABB.points
    simp only [List.mem_flatMap, List.mem_map, mem_intRange]
    constructor
    · rintro ⟨x, ⟨hx1, hx2⟩, y, ⟨hy1, hy2⟩, rfl⟩
      exact ⟨hx1, hx2, hy1, hy2⟩
    · rintro ⟨h1, h2, h3, h4⟩
      exact ⟨p.x, ⟨h1, h2⟩, p.y, ⟨h3, h4⟩, rfl⟩

/-- Witness for C4 (amended) at the rectangle with corners (0,0) and (1,1). -/
theorem aabb_points_column_major_witness :
    (AABB.points ⟨⟨0,0⟩, ⟨1,1⟩⟩ =
      (List.range ((1 + 1 - 0 : Int).toNat * (1 + 1 - 0 : Int).toNat)).map
        (fun t => ⟨0 + ((t / (1 + 1 - 0 : Int).toNat : Nat) : Int),
                   0 + ((t % (1 + 1 - 0 : Int).toNat : Nat) : Int)⟩)) ∧
    (∀ p : Point, p ∈ AABB.points ⟨⟨0,0⟩, ⟨1,1⟩⟩ ↔
      (0 ≤ p.x ∧ p.x ≤ 1 ∧ 0 ≤ p.y ∧ p.y ≤ 1)) :=
  aabb_points_column_major ⟨0,0⟩ ⟨1,1⟩ (by decide) (by decide)

/-- C4 as stated is false: for the AABB with corners (0,0) and (1,1) the
enumeration is column-major, `[(0,0), (0,1), (1,0), (1,1)]`, not the
row-major `[(0,0), (1,0), (0,1), (1,1)]` the claim asserts. -/
theorem aabb_points_not_row_major :
    AABB.points ⟨⟨0,0⟩, ⟨1,1⟩⟩ = [⟨0,0⟩, ⟨0,1⟩, ⟨1,0⟩, ⟨1,1⟩] ∧
    AABB.points ⟨⟨0,0⟩, ⟨1,1⟩⟩ ≠ [⟨0,0⟩, ⟨1,0⟩, ⟨0,1⟩, ⟨1,1⟩] := by
  constructor
  · rfl
  · decide

/-- C7: rotating a tile four times with `rotate_ccw_90` returns every point
to its original coordinates, and reflecting twice with `reflect_over_vert`
is the identity on the tile. -/
theorem tile_rotate4_reflect2_id (t : Tile) :
    t.rotate_ccw_90.rotate_ccw_90.rotate_ccw_90.rotate_ccw_90 = t ∧
    t.reflect_over_vert.reflect_over_vert = t := by
  constructor
  · simp only [Tile.rotate_ccw_90, List.map_map]
    exact List.map_id'' (fun p => by
      cases p with
      | mk x y => simp [Point.rotated_ccw_90, Function.comp]) t
  · simp only [Tile.reflect_over_vert, List.map_map]
    exact List.map_id'' (fun p => by
      cases p with
      | mk x y => simp [Point.reflected_over_vert, Function.comp]) t

/-! ### EncodingBoard (src/entity.rs) -/

/-- Lookup in an association list, modeling `HashMap::get` (the source's
maps always have distinct keys, so list order is irrelevant). -/
def alookup {α β : Type} [DecidableEq α] : List (α × β) → α → Option β
  | [], _ => none
  | (k, v) :: rest, a => if k = a then some v else alookup rest a

theorem alookup_eq_none {α β : Type} [DecidableEq α] (m : List (α × β)) (a : α) :
    alookup m a = none ↔ a ∉ m.map Prod.fst := by
  induction m with
  | nil => simp [alookup]
  | cons kv rest ih =>
    obtain ⟨k, v⟩ := kv
    by_cases h : k = a
    · subst h
      simp [alookup]
    · simp only [alookup, if_neg h, ih, List.map_cons, List.mem_cons]
      constructor
      · intro hna hor
        rcases hor with h1 | h2
        · exact h h1.symm
        · exact hna h2
      · intro hno h2
        exact hno (Or.inr h2)

theorem alookup_isSome {α β : Type} [DecidableEq α] (m : List (α × β)) (a : α) :
    (alookup m a).isSome ↔ a ∈ m.map Prod.fst := by
  rw [Option.isSome_iff_ne_none, ne_eq, alookup_eq_none, not_not]

theorem alookup_mem {α β : Type} [DecidableEq α] {m : List (α × β)} {a : α} {b : β} :
    alookup m a = some b → (a, b) ∈ m := by
  induction m with
  | nil => simp [alookup]
  | cons kv rest ih =>
    obtain ⟨k, v⟩ := kv
    by_cases h : k = a
    · subst h
      simp only [alookup, if_pos rfl]
      rintro ⟨rfl⟩
      exact List.mem_cons_self _ _
    · simp only [alookup, if_neg h]
      intro hb
      exact List.mem_cons_of_mem _ (ih hb)

theorem mem_alookup {α β : Type} [DecidableEq α] {m : List (α × β)} {a : α} {b : β}
    (hnd : (m.map Prod.fst).Nodup) (hmem : (a, b) ∈ m) : alookup m a = some b := by
  induction m with
  | nil => simp at hmem
  | cons kv rest ih =>
    obtain ⟨k, v⟩ := kv
    simp only [List.map_cons, List.nodup_cons] at hnd
    rcases List.mem_cons.mp hmem with h | h
    · rw [Prod.mk.injEq] at h
      obtain ⟨rfl, rfl⟩ := h
      simp [alookup]
    · have hka : k ≠ a := by
        intro heq
        subst heq
        exact hnd.1 (by exact List.mem_map.mpr ⟨(k, b), h, rfl⟩)
      simp only [alookup, if_neg hka]
      exact ih hnd.2 h

/-- All the points of the board, in AABB order (`EncodingBoard::points`). -/
def boardPoints (aabbs : List AABB) : List Point :=
  aabbs.flatMap AABB.points

/-- The loop body of `EncodingBoard::new` in src/entity.rs: walk the points,
assigning the running one-bit mask `enc` (a `u64`, so the shift wraps
modulo `2 ^ 64`); panic (`none`) when `enc` has wrapped to 0 (more than 64
points) or when a point is already present (overlapping AABBs). -/
def encBuild : List Point → Nat → List (Point × Nat) → Option (List (Point × Nat))
  | [], _, acc => some acc
  | p :: ps, enc, acc =>
    if enc = 0 then none
    else if (alookup acc p).isSome then none
    else encBuild ps (enc * 2 % 2 ^ 64) ((p, enc) :: acc)

/-- Function `EncodingBoard::new`: builds the point-to-mask map, starting
from `enc = 1`; fatal conditions are modeled as `none`. -/
def EncodingBoard.new (aabbs : List AABB) : Option (List (Point × Nat)) :=
  encBuild (boardPoints aabbs) 1 []

/-- The fold of `EncodingBoard::encode`:
`reduce(|a, b| match (a, b) { (Some(a), Some(b)) => Some(a | b), _ => None })`. -/
def combineMask : Option Nat → Option Nat → Option Nat
  | some a, some b => some (a ||| b)
  | _, _ => none

/-- Function `EncodingBoard::encode` in src/entity.rs: look every point up,
then `reduce` with `combineMask` (an empty input has no first element, so
the result is `none`). -/
def encode (m : List (Point × Nat)) (pts : List Point) : Option Nat :=
  match pts.map (fun p => alookup m p) with
  | [] => none
  | o :: os => os.foldl combineMask o

/-- The OR of a list of masks (reference function for the `encode` spec). -/
def orAll (l : List Nat) : Nat := l.foldr (· ||| ·) 0

/-! ### Facts about the encoding layer -/

theorem encBuild_success :
    ∀ (pts : List Point) (c : Nat) (acc m : List (Point × Nat)),
    encBuild pts (2 ^ c % 2 ^ 64) acc = some m →
    ((acc.map Prod.fst).Nodup) →
    (pts = [] ∨ c + pts.length ≤ 64) ∧
    m.map Prod.fst = pts.reverse ++ acc.map Prod.fst ∧
    (m.map Prod.fst).Nodup ∧
    m.map Prod.snd =
      ((List.range pts.length).map (fun k => 2 ^ (c + k))).reverse ++ acc.map Prod.snd := by
  intro pts
  induction pts with
  | nil =>
    intro c acc m hm hnd
    simp only [encBuild, Option.some.injEq] at hm
    subst hm
    exact ⟨Or.inl rfl, by simp, by simpa using hnd, by simp⟩
  | cons p ps ih =>
    intro c acc m hm hnd
    by_cases hc : c < 64
    · have henc : 2 ^ c % 2 ^ 64 = 2 ^ c :=
        Nat.mod_eq_of_lt (Nat.pow_lt_pow_right (by norm_num) hc)
      have hne : (2 : Nat) ^ c ≠ 0 := by positivity
      rw [encBuild, henc, if_neg hne] at hm
      by_cases hlk : (alookup acc p).isSome
      · rw [if_pos hlk] at hm
        exact absurd hm (by simp)
      · rw [if_neg hlk] at hm
        rw [show (2:Nat) ^ c * 2 = 2 ^ (c + 1) from (Nat.pow_succ 2 c).symm] at hm
        have hpnot : p ∉ acc.map Prod.fst := by
          rw [← alookup_eq_none]
          exact Option.not_isSome_iff_eq_none.mp hlk
        have hnd2 : (((p, 2 ^ c) :: acc).map Prod.fst).Nodup := by
          simp only [List.map_cons, List.nodup_cons]
          exact ⟨hpnot, hnd⟩
        obtain ⟨h1, h2, h3, h4⟩ := ih (c + 1) ((p, 2 ^ c) :: acc) m hm hnd2
        have hlen : c + (p :: ps).length ≤ 64 := by
          rcases h1 with h1 | h1
          · subst h1
            simp only [List.length_cons, List.length_nil]
            omega
          · simp only [List.length_cons]
            omega
        refine ⟨Or.inr hlen, ?_, h3, ?_⟩
        · rw [h2]
          simp [List.reverse_cons]
        · rw [h4]
          simp only [List.map_cons, List.length_cons]
          rw [List.range_succ_eq_map]
          simp only [List.map_cons, List.map_map, List.reverse_cons, Nat.add_zero,
            List.append_assoc, List.cons_append, List.nil_append]
          congr 2
          apply List.map_congr_left
          intro k _
          simp only [Function.comp_apply]
          congr 1
          omega
    · exfalso
      have hz : 2 ^ c % 2 ^ 64 = 0 :=
        Nat.mod_eq_zero_of_dvd (Nat.pow_dvd_pow 2 (by omega))
      rw [encBuild, hz, if_pos rfl] at hm
      exact absurd hm (by simp)

/-- C5: whenever `EncodingBoard::new(aabbs)` succeeds, each board point is
assigned a mask, the masks are pairwise distinct powers of two below
`2 ^ 64`, and their number equals the total number of points of the AABBs;
and the construction aborts (`none`) when there are more than 64 points or
some point is covered twice. -/
theorem encoding_new_bijective (aabbs : List AABB) :
    (∀ m, EncodingBoard.new aabbs = some m →
      m.length = (boardPoints aabbs).length ∧
      (m.map Prod.snd).Nodup ∧
      (∀ e ∈ m.map Prod.snd, ∃ k, k < 64 ∧ e = 2 ^ k) ∧
      (∀ p ∈ boardPoints aabbs, (alookup m p).isSome)) ∧
    ((64 < (boardPoints aabbs).length ∨ ¬ (boardPoints aabbs).Nodup) →
      EncodingBoard.new aabbs = none) := by
  have main : ∀ m, EncodingBoard.new aabbs = some m →
      m.map Prod.fst = (boardPoints aabbs).reverse ∧
      (boardPoints aabbs).Nodup ∧
      (boardPoints aabbs).length ≤ 64 ∧
      m.map Prod.snd =
        ((List.range (boardPoints aabbs).length).map (fun k => 2 ^ k)).reverse := by
    intro m hm
    have hm1 : encBuild (boardPoints aabbs) (2 ^ 0 % 2 ^ 64) [] = some m := by
      rwa [show 2 ^ 0 % 2 ^ 64 = 1 by norm_num]
    obtain ⟨hb, hfst, hnodup, hsnd⟩ :=
      encBuild_success (boardPoints aabbs) 0 [] m hm1 (by simp)
    have hfst2 : m.map Prod.fst = (boardPoints aabbs).reverse := by simpa using hfst
    have hsnd2 : m.map Prod.snd =
        ((List.range (boardPoints aabbs).length).map (fun k => 2 ^ k)).reverse := by
      simpa using hsnd
    refine ⟨hfst2, ?_, ?_, hsnd2⟩
    · have := hnodup
      rw [hfst2] at this
      exact (List.nodup_reverse).mp this
    · rcases hb with hb | hb
      · simp [hb]
      · omega
  constructor
  · intro m hm
    obtain ⟨hfst, hnd, hlen, hsnd⟩ := main m hm
    refine ⟨?_, ?_, ?_, ?_⟩
    · have : (m.map Prod.fst).length = (boardPoints aabbs).reverse.length := by rw [hfst]
      simpa using this
    · rw [hsnd, List.nodup_reverse]
      exact (List.nodup_range _).map (Nat.pow_right_injective (le_refl 2))
    · intro e he
      rw [hsnd, List.mem_reverse, List.mem_map] at he
      obtain ⟨k, hk, rfl⟩ := he
      rw [List.mem_range] at hk
      exact ⟨k, by omega, rfl⟩
    · intro p hp
      rw [alookup_isSome, hfst, List.mem_reverse]
      exact hp
  · intro hbad
    cases hnew : EncodingBoard.new aabbs with
    | none => rfl
    | some m =>
      exfalso
      obtain ⟨_, hnd, hlen, _⟩ := main m hnew
      rcases hbad with hbad | hbad
      · omega
      · exact hbad hnd

/-- Witness for C5, on a one-AABB board with the two points (0,0), (0,1). -/
theorem encoding_new_bijective_witness :
    [((⟨0,1⟩ : Point), (2:Nat)), (⟨0,0⟩, 1)].length =
      (boardPoints [⟨⟨0,0⟩, ⟨0,1⟩⟩]).length ∧
    ([((⟨0,1⟩ : Point), (2:Nat)), (⟨0,0⟩, 1)].map Prod.snd).Nodup ∧
    (∀ e ∈ [((⟨0,1⟩ : Point), (2:Nat)), (⟨0,0⟩, 1)].map Prod.snd,
      ∃ k, k < 64 ∧ e = 2 ^ k) ∧
    (∀ p ∈ boardPoints [⟨⟨0,0⟩, ⟨0,1⟩⟩],
      (alookup [((⟨0,1⟩ : Point), (2:Nat)), (⟨0,0⟩, 1)] p).isSome) :=
  (encoding_new_bijective [⟨⟨0,0⟩, ⟨0,1⟩⟩]).1
    [(⟨0,1⟩, 2), (⟨0,0⟩, 1)] (by decide)

theorem foldl_combine_none (os : List (Option Nat)) :
    os.foldl combineMask none = none := by
  induction os with
  | nil => rfl
  | cons o os ih =>
    have h : combineMask none o = none := by cases o <;> rfl
    rw [List.foldl_cons, h, ih]

theorem foldl_combine_some (os : List (Option Nat)) : ∀ a : Nat,
    os.foldl combineMask (some a) =
      if os.all Option.isSome then some (a ||| orAll (os.map (fun o => o.getD 0)))
      else none := by
  induction os with
  | nil =>
    intro a
    simp [orAll]
  | cons o os ih =>
    intro a
    cases o with
    | none =>
      rw [List.foldl_cons, show combineMask (some a) none = none from rfl,
        foldl_combine_none]
      simp
    | some b =>
      rw [List.foldl_cons, show combineMask (some a) (some b) = some (a ||| b) from rfl,
        ih (a ||| b)]
      by_cases h : os.all Option.isSome
      · rw [if_pos h, if_pos (by simp [h])]
        rw [show (some b :: os).map (fun o => o.getD 0) =
          b :: os.map (fun o => o.getD 0) from rfl]
        rw [show orAll (b :: os.map (fun o => o.getD 0)) =
          b ||| orAll (os.map (fun o => o.getD 0)) from rfl]
        rw [Nat.or_assoc]
      · rw [if_neg h, if_neg (by simp [h])]

/-- C6: `EncodingBoard::encode` returns `none` exactly when the input point
list is empty or contains a point outside the board map; on any other
input it returns the OR of the masks of all the points. -/
theorem encode_none_or_value (m : List (Point × Nat)) (pts : List Point) :
    (encode m pts = none ↔ (pts = [] ∨ ∃ p ∈ pts, alookup m p = none)) ∧
    (∀ v, encode m pts = some v →
      v = orAll (pts.map (fun p => (alookup m p).getD 0))) := by
  cases pts with
  | nil =>
    constructor
    · simp [encode]
    · intro v hv
      simp [encode] at hv
  | cons p ps =>
    have hcons : encode m (p :: ps) =
        (ps.map (fun q => alookup m q)).foldl combineMask (alookup m p) := rfl
    cases hl : alookup m p with
    | none =>
      have henc : encode m (p :: ps) = none := by
        rw [hcons, hl, foldl_combine_none]
      constructor
      · rw [henc]
        simp only [true_iff]
        exact Or.inr ⟨p, List.mem_cons_self _ _, hl⟩
      · intro v hv
        rw [henc] at hv
        exact absurd hv (by simp)
    | some b =>
      have henc : encode m (p :: ps) =
          if (ps.map (fun q => alookup m q)).all Option.isSome
          then some (b ||| orAll ((ps.map (fun q => alookup m q)).map (fun o => o.getD 0)))
          else none := by
        rw [hcons, hl, foldl_combine_some]
      by_cases hall : (ps.map (fun q => alookup m q)).all Option.isSome
      · rw [if_pos hall] at henc
        constructor
        · rw [henc]
          simp only [reduceCtorEq, false_iff]
          intro hor
          rcases hor with hnil | ⟨q, hq, hqnone⟩
          · exact absurd hnil (by simp)
          · rcases List.mem_cons.mp hq with rfl | hq2
            · rw [hl] at hqnone
              exact absurd hqnone (by simp)
            · have := List.all_eq_true.mp hall _ (List.mem_map.mpr ⟨q, hq2, rfl⟩)
              rw [hqnone] at this
              exact absurd this (by simp)
        · intro v hv
          rw [henc] at hv
          obtain rfl : b ||| orAll ((ps.map (fun q => alookup m q)).map (fun o => o.getD 0)) = v := by
            injection hv
          rw [List.map_map]
          rw [show (p :: ps).map (fun q => (alookup m q).getD 0) =
            (alookup m p).getD 0 :: ps.map (fun q => (alookup m q).getD 0) from rfl, hl]
          rfl
      · rw [if_neg hall] at henc
        constructor
        · rw [henc]
          simp only [true_iff]
          refine Or.inr ?_
          have : ∃ o ∈ ps.map (fun q => alookup m q), ¬ o.isSome := by
            by_contra hno
            push_neg at hno
            exact hall (List.all_eq_true.mpr (fun o ho => by simpa using hno o ho))
          obtain ⟨o, ho, hno⟩ := this
          obtain ⟨q, hq, rfl⟩ := List.mem_map.mp ho
          exact ⟨q, List.mem_cons_of_mem _ hq, Option.not_isSome_iff_eq_none.mp hno⟩
        · intro v hv
          rw [henc] at hv
          exact absurd hv (by simp)

/-- Witness for C6 on a two-point board map and the point list [(0,0)]. -/
theorem encode_none_or_value_witness :
    (encode [((⟨0,1⟩ : Point), (2:Nat)), (⟨0,0⟩, 1)] [⟨0,0⟩] = none ↔
      ([(⟨0,0⟩ : Point)] = [] ∨
        ∃ p ∈ [(⟨0,0⟩ : Point)], alookup [((⟨0,1⟩ : Point), (2:Nat)), (⟨0,0⟩, 1)] p = none)) ∧
    (∀ v, encode [((⟨0,1⟩ : Point), (2:Nat)), (⟨0,0⟩, 1)] [⟨0,0⟩] = some v →
      v = orAll ([(⟨0,0⟩ : Point)].map
        (fun p => (alookup [((⟨0,1⟩ : Point), (2:Nat)), (⟨0,0⟩, 1)] p).getD 0))) :=
  encode_none_or_value [(⟨0,1⟩, 2), (⟨0,0⟩, 1)] [⟨0,0⟩]

/-! ### The backtracking search (src/backtrack.rs) -/

/-- The inner candidate-scan loop of `backtrack` (src/backtrack.rs lines
16-26): probe `placements[sel]`; break with `(placement, sel)` when it is
disjoint from `board`; otherwise advance, breaking with `(0, bound)` when
the scan hits `bound`.  A `none` result models the index-out-of-range
panic of `placements[selected_placement]`.  The `gas` argument only makes
the recursion structural: the loop either breaks or panics after at most
`placements.length + 1 - sel` probes, and `findMove` below supplies
exactly that, so `gas` never influences the result. -/
def findMoveGo (placements : List Nat) (board bound : Nat) : Nat → Nat → Option (Nat × Nat)
  | 0, _ => none
  | gas + 1, sel =>
    match placements.get? sel with
    | none => none
    | some p =>
      if p &&& board = 0 then some (p, sel)
      else if sel + 1 = bound then some (0, bound)
      else findMoveGo placements board bound gas (sel + 1)

/-- The candidate scan of `backtrack`, starting at index `sel`. -/
def findMove (placements : List Nat) (board bound sel : Nat) : Option (Nat × Nat) :=
  findMoveGo placements board bound (placements.length + 1 - sel) sel

/-- The walk-back loop of `backtrack` (src/backtrack.rs lines 36-57): pop
exhausted levels, resetting their resume pointers to the start of their
slices; `some none` models `return None` (the whole search failed),
`some (some (i, board, selected))` resuming level `i` with the restored
board. `none` models an out-of-range panic. -/
def walkBack (pidx boards : List Nat) : Nat → List Nat → Option (Option (Nat × Nat × List Nat))
  | 0, _ => some none
  | i + 1, selected =>
    match pidx.get? (i + 1) with
    | none => none
    | some bound =>
      match selected.get? i with
      | none => none
      | some sel =>
        if sel = bound then
          match pidx.get? i with
          | none => none
          | some pi => walkBack pidx boards i (selected.set i pi)
        else
          match boards.get? i with
          | none => none
          | some b => some (some (i, b, selected))

/-- The mutable state of the `backtrack` loop: `selected_placements`,
`board_states`, the level `i`, and the accumulated `board`. -/
structure BTState where
  selected : List Nat
  boards : List Nat
  i : Nat
  board : Nat
deriving DecidableEq

/-- One iteration of the main `loop` of `backtrack` (src/backtrack.rs lines
11-78).  `none` models a panic; `some (Sum.inl st)` continues the loop in
state `st`; `some (Sum.inr none)` is `return None`; `some (Sum.inr (some r))`
is the `break` at line 73 followed by building the result vector
(lines 80-87): the first `selected_placements.len() - 1` entries, each
decremented by one. -/
def btStep (placements pidx : List Nat) (st : BTState) : Option (BTState ⊕ Option (List Nat)) := do
  let sel0 ← st.selected.get? st.i
  let bound ← st.selected.get? (st.i + 1)
  let pj ← findMove placements st.board bound sel0
  if pj.1 = 0 then
    let pi ← pidx.get? st.i
    let selected := st.selected.set st.i pi
    match ← walkBack pidx st.boards st.i selected with
    | none => return Sum.inr none
    | some (i2, b2, selected2) =>
      return Sum.inl { selected := selected2, boards := st.boards, i := i2, board := b2 }
  else
    let selected := st.selected.set st.i (pj.2 + 1)
    let boards := st.boards.set st.i st.board
    if st.i + 1 = pidx.length - 1 then
      return Sum.inr (some (((selected.take (selected.length - 1)).map (fun x => x - 1))))
    else
      return Sum.inl
        { selected := selected, boards := boards, i := st.i + 1, board := st.board ||| pj.1 }

/-- Outcome of a (fuel-bounded) run of the `backtrack` loop. `timeout` is a
model artifact (insufficient fuel), not a behavior of the source; a
separate bound shows enough fuel always exists. -/
inductive BTOutcome where
  | panic : BTOutcome
  | timeout : BTOutcome
  | noSolution : BTOutcome
  | solution : List Nat → BTOutcome
deriving DecidableEq

/-- Run the `backtrack` loop for at most `fuel` iterations. -/
def btRun (placements pidx : List Nat) : Nat → BTState → BTOutcome
  | 0, _ => .timeout
  | fuel + 1, st =>
    match btStep placements pidx st with
    | none => .panic
    | some (Sum.inr none) => .noSolution
    | some (Sum.inr (some r)) => .solution r
    | some (Sum.inl st2) => btRun placements pidx fuel st2

/-- The state set up by lines 6-9 of src/backtrack.rs:
`selected_placements` is a copy of `placement_indices`, `board_states` is
`vec![initial_board; placement_indices.len() - 1]`, `i = 0`, and
`board = initial_board`. -/
def backtrackInit (initial : Nat) (pidx : List Nat) : BTState :=
  { selected := pidx
    boards := List.replicate (pidx.length - 1) initial
    i := 0
    board := initial }

/-- Function `backtrack` of src/backtrack.rs, fuel-bounded. -/
def backtrack (fuel initial : Nat) (placements pidx : List Nat) : BTOutcome :=
  btRun placements pidx fuel (backtrackInit initial pidx)

/-- The well-formedness contract on `placement_indices` stated by the
specification: at least two entries, strictly increasing, last entry equal
to `placements.len()`. -/
def WFIndices (placements pidx : List Nat) : Prop :=
  2 ≤ pidx.length ∧
  (∀ j < pidx.length - 1, pidx.getD j 0 < pidx.getD (j + 1) 0) ∧
  pidx.getLast? = some placements.length

instance (placements pidx : List Nat) : Decidable (WFIndices placements pidx) :=
  inferInstanceAs (Decidable (2 ≤ pidx.length ∧
    (∀ j < pidx.length - 1, pidx.getD j 0 < pidx.getD (j + 1) 0) ∧
    pidx.getLast? = some placements.length))

/-! ### Scan-loop lemmas -/

theorem findMoveGo_some_le (placements : List Nat) (b bound : Nat) :
    ∀ gas s p j, findMoveGo placements b bound gas s = some (p, j) → p ≠ 0 →
    s ≤ j ∧ j < placements.length := by
  intro gas
  induction gas with
  | zero =>
    intro s p j h
    exact absurd h (by simp [findMoveGo])
  | succ gas ih =>
    intro s p j h hz
    rw [findMoveGo] at h
    cases hq : placements.get? s with
    | none =>
      simp only [hq] at h
      exact absurd h (by simp)
    | some q =>
      simp only [hq] at h
      have hslen : s < placements.length := by
        rw [List.get?_eq_getElem?] at hq
        exact (List.getElem?_eq_some_iff.mp hq).choose
      by_cases hd : q &&& b = 0
      · rw [if_pos hd] at h
        simp only [Option.some.injEq, Prod.mk.injEq] at h
        obtain ⟨rfl, rfl⟩ := h
        exact ⟨le_refl _, hslen⟩
      · rw [if_neg hd] at h
        by_cases hb : s + 1 = bound
        · rw [if_pos hb] at h
          simp only [Option.some.injEq, Prod.mk.injEq] at h
          obtain ⟨rfl, rfl⟩ := h
          exact absurd rfl hz
        · rw [if_neg hb] at h
          obtain ⟨h1, h2⟩ := ih (s + 1) p j h hz
          exact ⟨by omega, h2⟩

theorem findMove_some_le (placements : List Nat) (b bound s : Nat) (pj : Nat × Nat)
    (h : findMove placements b bound s = some pj) (hz : pj.1 ≠ 0) :
    s ≤ pj.2 ∧ pj.2 < placements.length := by
  obtain ⟨p, j⟩ := pj
  exact findMoveGo_some_le placements b bound _ s p j h hz

/-! ### Recursive reference formulation of the search -/

/-- Reference depth-first search equivalent to the `backtrack` loop:
try slice `k` (whose end is `pidx[k+1]`) from candidate index `s` with
accumulated board `b`; a scan hitting the slice end (`p = 0`) fails this
level.  Returns the list of chosen global candidate indices for levels
`k, k+1, …`, or `none` when this subtree is exhausted. -/
def dfs (placements pidx : List Nat) (k s b : Nat) : Option (List Nat) :=
  if pidx.length - 1 ≤ k then some []
  else if pidx.getD (k + 1) 0 ≤ s then none
  else
    match hm : findMove placements b (pidx.getD (k + 1) 0) s with
    | none => none
    | some pj =>
      if hz : pj.1 = 0 then none
      else
        match dfs placements pidx (k + 1) (pidx.getD (k + 1) 0) (b ||| pj.1) with
        | some rest => some (pj.2 :: rest)
        | none => dfs placements pidx k (pj.2 + 1) b
termination_by (pidx.length - 1 - k, placements.length + 1 - s)
decreasing_by
  · apply Prod.Lex.left
    omega
  · have := findMove_some_le placements b (pidx.getD (k + 1) 0) s pj hm hz
    apply Prod.Lex.right
    omega

/-- Iteration count of `dfs`, used as a fuel bound for the loop. -/
def dfsSteps (placements pidx : List Nat) (k s b : Nat) : Nat :=
  if pidx.length - 1 ≤ k then 1
  else if pidx.getD (k + 1) 0 ≤ s then 1
  else
    match hm : findMove placements b (pidx.getD (k + 1) 0) s with
    | none => 1
    | some pj =>
      if hz : pj.1 = 0 then 1
      else 1 + dfsSteps placements pidx (k + 1) (pidx.getD (k + 1) 0) (b ||| pj.1)
             + dfsSteps placements pidx k (pj.2 + 1) b
termination_by (pidx.length - 1 - k, placements.length + 1 - s)
decreasing_by
  · apply Prod.Lex.left
    omega
  · have := findMove_some_le placements b (pidx.getD (k + 1) 0) s pj hm hz
    apply Prod.Lex.right
    omega

/-- The committed prefix of a loop state: the chosen global index of each
level below `i` (its resume pointer minus one). -/
def prefixSel (selected : List Nat) (i : Nat) : List Nat :=
  (selected.take i).map (fun x => x - 1)

/-- Abstraction of a loop state to its final outcome: run `dfs` at the
current level, and on failure pop to the previous level with its saved
board, as the walk-back loop does. -/
def pending (placements pidx selected boards : List Nat) : Nat → Nat → Option (List Nat)
  | 0, board =>
    match dfs placements pidx 0 (selected.getD 0 0) board with
    | some rest => some (prefixSel selected 0 ++ rest)
    | none => none
  | i + 1, board =>
    match dfs placements pidx (i + 1) (selected.getD (i + 1) 0) board with
    | some rest => some (prefixSel selected (i + 1) ++ rest)
    | none => pending placements pidx selected boards i (boards.getD i 0)

/-- Remaining-iteration bound of a loop state. -/
def phi (placements pidx selected boards : List Nat) : Nat → Nat → Nat
  | 0, board => dfsSteps placements pidx 0 (selected.getD 0 0) board
  | i + 1, board =>
    dfsSteps placements pidx (i + 1) (selected.getD (i + 1) 0) board +
      phi placements pidx selected boards i (boards.getD i 0)

/-- A valid continuation of the search from level `k`: one candidate index
per remaining slice, the first at least `s`, each inside its slice and
disjoint from the board accumulated so far. -/
def SelFrom (placements pidx : List Nat) : Nat → Nat → Nat → List Nat → Prop
  | k, _, _, [] => pidx.length - 1 ≤ k
  | k, s, b, j :: rest =>
    k < pidx.length - 1 ∧ s ≤ j ∧ j < pidx.getD (k + 1) 0 ∧
    placements.getD j 0 &&& b = 0 ∧
    SelFrom placements pidx (k + 1) (pidx.getD (k + 1) 0) (b ||| placements.getD j 0) rest

/-- A valid selection for the whole search, stated the way the
specification does: one candidate index inside each piece slice such that
the initial board together with all chosen masks is pairwise disjoint. -/
def ValidSelection (initial : Nat) (placements pidx : List Nat) (r : List Nat) : Prop :=
  r.length = pidx.length - 1 ∧
  (∀ k < r.length, pidx.getD k 0 ≤ r.getD k 0 ∧ r.getD k 0 < pidx.getD (k + 1) 0) ∧
  List.Pairwise (fun a b => a &&& b = 0) (initial :: r.map (fun j => placements.getD j 0))

instance (initial : Nat) (placements pidx r : List Nat) :
    Decidable (ValidSelection initial placements pidx r) :=
  inferInstanceAs (Decidable (r.length = pidx.length - 1 ∧
    (∀ k < r.length, pidx.getD k 0 ≤ r.getD k 0 ∧ r.getD k 0 < pidx.getD (k + 1) 0) ∧
    List.Pairwise (fun a b => a &&& b = 0)
      (initial :: r.map (fun j => placements.getD j 0))))

/-! ### Small helper lemmas -/

theorem or_eq_zero_iff (x y : Nat) : x ||| y = 0 ↔ x = 0 ∧ y = 0 := by
  constructor
  · intro h
    constructor <;> apply Nat.eq_of_testBit_eq <;> intro t <;>
      rw [Nat.zero_testBit] <;>
      have ht := congrArg (fun z => Nat.testBit z t) h <;>
      simp only [Nat.testBit_or, Nat.zero_testBit, Bool.or_eq_false_iff] at ht
    · exact ht.1
    · exact ht.2
  · rintro ⟨rfl, rfl⟩
    rfl

theorem and_or_eq_zero_iff (a b c : Nat) :
    a &&& (b ||| c) = 0 ↔ a &&& b = 0 ∧ a &&& c = 0 := by
  rw [Nat.and_or_distrib_left, or_eq_zero_iff]

theorem get?_eq_some_getD {l : List Nat} {i : Nat} (h : i < l.length) :
    l.get? i = some (l.getD i 0) := by
  rw [List.get?_eq_getElem?, List.getD_eq_getElem?_getD, List.getElem?_eq_getElem h]
  rfl

theorem getD_set_self {l : List Nat} {i : Nat} (v : Nat) (h : i < l.length) :
    (l.set i v).getD i 0 = v := by
  rw [List.getD_eq_getElem?_getD, List.getElem?_set_self h]
  rfl

theorem getD_set_ne {l : List Nat} {i j : Nat} (v : Nat) (h : i ≠ j) :
    (l.set i v).getD j 0 = l.getD j 0 := by
  rw [List.getD_eq_getElem?_getD, List.getElem?_set_ne h, ← List.getD_eq_getElem?_getD]

theorem take_eq_of_getD_eq {l1 l2 : List Nat} (hlen : l1.length = l2.length) (j : Nat)
    (h : ∀ t, t < j → l1.getD t 0 = l2.getD t 0) : l1.take j = l2.take j := by
  apply List.ext_getElem?
  intro t
  rw [List.getElem?_take, List.getElem?_take]
  by_cases ht : t < j
  · rw [if_pos ht, if_pos ht]
    by_cases htl : t < l1.length
    · rw [List.getElem?_eq_getElem htl, List.getElem?_eq_getElem (hlen ▸ htl)]
      have := h t ht
      rw [List.getD_eq_getElem?_getD, List.getD_eq_getElem?_getD,
        List.getElem?_eq_getElem htl, List.getElem?_eq_getElem (hlen ▸ htl)] at this
      simpa using this
    · rw [List.getElem?_eq_none (by omega), List.getElem?_eq_none (by omega)]
  · rw [if_neg ht, if_neg ht]

theorem take_succ_set {l : List Nat} {i : Nat} (v : Nat) (h : i < l.length) :
    (l.set i v).take (i + 1) = l.take i ++ [v] := by
  rw [List.take_succ]
  have h1 : (l.set i v).take i = l.take i :=
    take_eq_of_getD_eq (by simp) i (fun t ht => getD_set_ne v (by omega))
  rw [h1, List.getElem?_set_self h]
  rfl

/-- Strict monotonicity of `placement_indices` extended to arbitrary
index pairs. -/
theorem pidx_mono {pidx : List Nat}
    (hmono : ∀ j, j < pidx.length - 1 → pidx.getD j 0 < pidx.getD (j + 1) 0) :
    ∀ a b, a ≤ b → b < pidx.length → pidx.getD a 0 ≤ pidx.getD b 0 := by
  intro a b hab hb
  induction b with
  | zero =>
    obtain rfl : a = 0 := by omega
    exact le_refl _
  | succ b ih =>
    rcases Nat.lt_or_ge a (b + 1) with h | h
    · have h1 : pidx.getD a 0 ≤ pidx.getD b 0 := ih (by omega) (by omega)
      have h2 : pidx.getD b 0 < pidx.getD (b + 1) 0 := hmono b (by omega)
      omega
    · obtain rfl : a = b + 1 := by omega
      exact le_refl _

theorem pidx_le_placements {placements pidx : List Nat}
    (hmono : ∀ j, j < pidx.length - 1 → pidx.getD j 0 < pidx.getD (j + 1) 0)
    (hlast : pidx.getLast? = some placements.length) (hlen : 1 ≤ pidx.length) :
    ∀ t, t < pidx.length → pidx.getD t 0 ≤ placements.length := by
  intro t ht
  have hlast2 : pidx.getD (pidx.length - 1) 0 = placements.length := by
    rw [List.getLast?_eq_getElem?] at hlast
    rw [List.getD_eq_getElem?_getD, hlast]
    rfl
  have := pidx_mono hmono t (pidx.length - 1) (by omega) (by omega)
  omega

/-! ### Characterization of the candidate scan -/

theorem findMoveGo_gas (placements : List Nat) (b bound : Nat) :
    ∀ gas1 gas2 sel, placements.length + 1 - sel ≤ gas1 →
    placements.length + 1 - sel ≤ gas2 →
    findMoveGo placements b bound gas1 sel = findMoveGo placements b bound gas2 sel := by
  intro gas1
  induction gas1 with
  | zero =>
    intro gas2 sel h1 h2
    have hsel : placements.length < sel := by omega
    have hq : placements.get? sel = none := by
      rw [List.get?_eq_getElem?, List.getElem?_eq_none (by omega)]
    cases gas2 with
    | zero => rfl
    | succ gas2 =>
      rw [findMoveGo, findMoveGo, hq]
  | succ gas1 ih =>
    intro gas2 sel h1 h2
    cases gas2 with
    | zero =>
      have hsel : placements.length < sel := by omega
      have hq : placements.get? sel = none := by
        rw [List.get?_eq_getElem?, List.getElem?_eq_none (by omega)]
      rw [findMoveGo, findMoveGo, hq]
    | succ gas2 =>
      rw [findMoveGo, findMoveGo]
      cases hq : placements.get? sel with
      | none => rfl
      | some p =>
        simp only []
        have hsel : sel < placements.length := by
          rw [List.get?_eq_getElem?] at hq
          exact (List.getElem?_eq_some_iff.mp hq).choose
        by_cases hd : p &&& b = 0
        · rw [if_pos hd, if_pos hd]
        · rw [if_neg hd, if_neg hd]
          by_cases hb : sel + 1 = bound
          · rw [if_pos hb, if_pos hb]
          · rw [if_neg hb, if_neg hb]
            exact ih gas2 (sel + 1) (by omega) (by omega)

theorem findMove_eq (placements : List Nat) (b bound sel : Nat) :
    findMove placements b bound sel =
      match placements.get? sel with
      | none => none
      | some p =>
        if p &&& b = 0 then some (p, sel)
        else if sel + 1 = bound then some (0, bound)
        else findMove placements b bound (sel + 1) := by
  unfold findMove
  cases hg : placements.length + 1 - sel with
  | zero =>
    have hq : placements.get? sel = none := by
      rw [List.get?_eq_getElem?, List.getElem?_eq_none (by omega)]
    rw [hq, findMoveGo]
  | succ g =>
    rw [findMoveGo]
    cases hq : placements.get? sel with
    | none => rfl
    | some p =>
      simp only []
      by_cases hd : p &&& b = 0
      · simp only [if_pos hd]
      · simp only [if_neg hd]
        by_cases hb : sel + 1 = bound
        · simp only [if_pos hb]
        · simp only [if_neg hb]
          exact findMoveGo_gas placements b bound g (placements.length + 1 - (sel + 1))
            (sel + 1) (by omega) (by omega)

/-- Full characterization of the candidate scan on a well-formed slice
`[s, bound)` with `bound` inside the array: either it finds the first
index `j` whose placement is disjoint from the board (everything before
`j` in the slice overlapping), or every candidate of the slice overlaps
and it breaks with the sentinel `(0, bound)`. -/
theorem findMove_master (placements : List Nat) (b bound : Nat) :
    ∀ n s, bound - s = n → s < bound → bound ≤ placements.length →
    (∃ j, s ≤ j ∧ j < bound ∧
      findMove placements b bound s = some (placements.getD j 0, j) ∧
      placements.getD j 0 &&& b = 0 ∧
      (∀ t, s ≤ t → t < j → placements.getD t 0 &&& b ≠ 0)) ∨
    (findMove placements b bound s = some (0, bound) ∧
      (∀ t, s ≤ t → t < bound → placements.getD t 0 &&& b ≠ 0)) := by
  intro n
  induction n with
  | zero =>
    intro s hn hs hlen
    omega
  | succ n ih =>
    intro s hn hs hlen
    have hsl : s < placements.length := by omega
    have hq : placements.get? s = some (placements.getD s 0) := get?_eq_some_getD hsl
    by_cases hd : placements.getD s 0 &&& b = 0
    · left
      refine ⟨s, le_refl _, hs, ?_, hd, fun t ht1 ht2 => by omega⟩
      rw [findMove_eq, hq]
      simp only []
      rw [if_pos hd]
    · by_cases hb : s + 1 = bound
      · right
        constructor
        · rw [findMove_eq, hq]
          simp only []
          rw [if_neg hd, if_pos hb]
        · intro t ht1 ht2
          obtain rfl : t = s := by omega
          exact hd
      · have hrec := ih (s + 1) (by omega) (by omega) hlen
        have hunf : findMove placements b bound s = findMove placements b bound (s + 1) := by
          rw [findMove_eq, hq]
          simp only []
          rw [if_neg hd, if_neg hb]
        rcases hrec with ⟨j, hj1, hj2, hj3, hj4, hj5⟩ | ⟨h1, h2⟩
        · left
          refine ⟨j, by omega, hj2, by rw [hunf]; exact hj3, hj4, ?_⟩
          intro t ht1 ht2
          rcases Nat.eq_or_lt_of_le ht1 with rfl | ht1
          · exact hd
          · exact hj5 t (by omega) ht2
        · right
          refine ⟨by rw [hunf]; exact h1, ?_⟩
          intro t ht1 ht2
          rcases Nat.eq_or_lt_of_le ht1 with rfl | ht1
          · exact hd
          · exact h2 t (by omega) ht2

/-- The zero-mask sentinel: when the scan reaches an index holding the
mask 0, it breaks immediately with placement 0 (0 is disjoint from every
board), which the outer loop then treats as slice exhaustion. -/
theorem findMove_zero_entry (placements : List Nat) (b bound j : Nat)
    (h : placements.get? j = some 0) :
    findMove placements b bound j = some (0, j) := by
  rw [findMove_eq, h]
  simp only []
  rw [if_pos (Nat.zero_and b)]

/-! ### Unfolding lemmas for the reference search -/

theorem dfs_terminal (placements pidx : List Nat) (k s b : Nat)
    (hk : pidx.length - 1 ≤ k) : dfs placements pidx k s b = some [] := by
  rw [dfs, if_pos hk]

theorem dfs_guard (placements pidx : List Nat) (k s b : Nat)
    (hk : ¬ pidx.length - 1 ≤ k) (hs : pidx.getD (k + 1) 0 ≤ s) :
    dfs placements pidx k s b = none := by
  rw [dfs, if_neg hk, if_pos hs]

theorem dfs_of_zero (placements pidx : List Nat) (k s b : Nat) (pj : Nat × Nat)
    (hk : ¬ pidx.length - 1 ≤ k) (hs : ¬ pidx.getD (k + 1) 0 ≤ s)
    (hm : findMove placements b (pidx.getD (k + 1) 0) s = some pj) (hz : pj.1 = 0) :
    dfs placements pidx k s b = none := by
  rw [dfs, if_neg hk, if_neg hs]
  split
  · rfl
  · rename_i pj2 heq
    rw [hm] at heq
    injection heq with h2
    subst h2
    rw [dif_pos hz]

theorem dfs_of_found (placements pidx : List Nat) (k s b : Nat) (pj : Nat × Nat)
    (hk : ¬ pidx.length - 1 ≤ k) (hs : ¬ pidx.getD (k + 1) 0 ≤ s)
    (hm : findMove placements b (pidx.getD (k + 1) 0) s = some pj) (hz : pj.1 ≠ 0) :
    dfs placements pidx k s b =
      (match dfs placements pidx (k + 1) (pidx.getD (k + 1) 0) (b ||| pj.1) with
       | some rest => some (pj.2 :: rest)
       | none => dfs placements pidx k (pj.2 + 1) b) := by
  rw [dfs, if_neg hk, if_neg hs]
  split
  · rename_i heq
    rw [hm] at heq
    exact absurd heq (by simp)
  · rename_i pj2 heq
    rw [hm] at heq
    injection heq with h2
    subst h2
    rw [dif_neg hz]

theorem dfsSteps_terminal (placements pidx : List Nat) (k s b : Nat)
    (hk : pidx.length - 1 ≤ k) : dfsSteps placements pidx k s b = 1 := by
  rw [dfsSteps, if_pos hk]

theorem dfsSteps_guard (placements pidx : List Nat) (k s b : Nat)
    (hk : ¬ pidx.length - 1 ≤ k) (hs : pidx.getD (k + 1) 0 ≤ s) :
    dfsSteps placements pidx k s b = 1 := by
  rw [dfsSteps, if_neg hk, if_pos hs]

theorem dfsSteps_of_zero (placements pidx : List Nat) (k s b : Nat) (pj : Nat × Nat)
    (hk : ¬ pidx.length - 1 ≤ k) (hs : ¬ pidx.getD (k + 1) 0 ≤ s)
    (hm : findMove placements b (pidx.getD (k + 1) 0) s = some pj) (hz : pj.1 = 0) :
    dfsSteps placements pidx k s b = 1 := by
  rw [dfsSteps, if_neg hk, if_neg hs]
  split
  · rfl
  · rename_i pj2 heq
    rw [hm] at heq
    injection heq with h2
    subst h2
    rw [dif_pos hz]

theorem dfsSteps_of_found (placements pidx : List Nat) (k s b : Nat) (pj : Nat × Nat)
    (hk : ¬ pidx.length - 1 ≤ k) (hs : ¬ pidx.getD (k + 1) 0 ≤ s)
    (hm : findMove placements b (pidx.getD (k + 1) 0) s = some pj) (hz : pj.1 ≠ 0) :
    dfsSteps placements pidx k s b =
      1 + dfsSteps placements pidx (k + 1) (pidx.getD (k + 1) 0) (b ||| pj.1)
        + dfsSteps placements pidx k (pj.2 + 1) b := by
  rw [dfsSteps, if_neg hk, if_neg hs]
  split
  · rename_i heq
    rw [hm] at heq
    exact absurd heq (by simp)
  · rename_i pj2 heq
    rw [hm] at heq
    injection heq with h2
    subst h2
    rw [dif_neg hz]

theorem getD_of_get? {l : List Nat} {j v : Nat} (h : l.get? j = some v) :
    l.getD j 0 = v := by
  rw [List.getD_eq_getElem?_getD, ← List.get?_eq_getElem?, h]
  rfl

theorem findMoveGo_found (placements : List Nat) (b bound : Nat) :
    ∀ gas s pj, findMoveGo placements b bound gas s = some pj → pj.1 ≠ 0 →
    s < bound →
    s ≤ pj.2 ∧ pj.2 < bound ∧ placements.get? pj.2 = some pj.1 ∧ pj.1 &&& b = 0 := by
  intro gas
  induction gas with
  | zero =>
    intro s pj h
    exact absurd h (by simp [findMoveGo])
  | succ gas ih =>
    intro s pj h hz hs
    rw [findMoveGo] at h
    cases hq : placements.get? s with
    | none =>
      simp only [hq] at h
      exact absurd h (by simp)
    | some q =>
      simp only [hq] at h
      by_cases hd : q &&& b = 0
      · rw [if_pos hd] at h
        simp only [Option.some.injEq] at h
        subst h
        exact ⟨le_refl _, hs, hq, hd⟩
      · rw [if_neg hd] at h
        by_cases hb : s + 1 = bound
        · rw [if_pos hb] at h
          simp only [Option.some.injEq] at h
          subst h
          exact absurd rfl hz
        · rw [if_neg hb] at h
          obtain ⟨h1, h2, h3, h4⟩ := ih (s + 1) pj h hz (by omega)
          exact ⟨by omega, h2, h3, h4⟩

theorem findMove_found (placements : List Nat) (b bound s : Nat) (pj : Nat × Nat)
    (h : findMove placements b bound s = some pj) (hz : pj.1 ≠ 0) (hs : s < bound) :
    s ≤ pj.2 ∧ pj.2 < bound ∧ placements.get? pj.2 = some pj.1 ∧ pj.1 &&& b = 0 :=
  findMoveGo_found placements b bound _ s pj h hz hs

theorem SelFrom_mono (placements pidx : List Nat) {k s1 s2 b : Nat} {r : List Nat}
    (hs : s1 ≤ s2) (h : SelFrom placements pidx k s2 b r) :
    SelFrom placements pidx k s1 b r := by
  cases r with
  | nil => exact h
  | cons j rest =>
    obtain ⟨h1, h2, h3, h4, h5⟩ := h
    exact ⟨h1, by omega, h3, h4, h5⟩

/-- Soundness of the reference search: any result is a valid continuation. -/
theorem dfs_sound (placements pidx : List Nat) :
    ∀ k s b, ∀ r, dfs placements pidx k s b = some r →
    SelFrom placements pidx k s b r := by
  intro k s b
  induction k, s, b using dfs.induct placements pidx with
  | case1 k s b hk =>
    intro r hr
    rw [dfs_terminal placements pidx k s b hk] at hr
    simp only [Option.some.injEq] at hr
    subst hr
    exact hk
  | case2 k s b hk hs =>
    intro r hr
    rw [dfs_guard placements pidx k s b hk hs] at hr
    exact absurd hr (by simp)
  | case3 k s b hk hs hm =>
    intro r hr
    rw [dfs, if_neg hk, if_neg hs] at hr
    split at hr
    · exact absurd hr (by simp)
    · rename_i pj2 heq
      rw [hm] at heq
      exact absurd heq (by simp)
  | case4 k s b hk hs pj hm hz =>
    intro r hr
    rw [dfs_of_zero placements pidx k s b pj hk hs hm hz] at hr
    exact absurd hr (by simp)
  | case5 k s b hk hs pj hm hz rest hrest ih =>
    intro r hr
    rw [dfs_of_found placements pidx k s b pj hk hs hm hz, hrest] at hr
    simp only [Option.some.injEq] at hr
    subst hr
    obtain ⟨h1, h2, h3, h4⟩ := findMove_found placements b _ s pj hm hz (by omega)
    have hgd : placements.getD pj.2 0 = pj.1 := getD_of_get? h3
    refine ⟨by omega, h1, h2, by rw [hgd]; exact h4, ?_⟩
    rw [hgd]
    exact ih rest hrest
  | case6 k s b hk hs pj hm hz hnone ih1 ih2 =>
    intro r hr
    rw [dfs_of_found placements pidx k s b pj hk hs hm hz, hnone] at hr
    obtain ⟨h1, _, _, _⟩ := findMove_found placements b _ s pj hm hz (by omega)
    exact SelFrom_mono placements pidx (by omega) (ih2 r hr)

/-- Completeness of the reference search on nonzero candidate masks:
a `none` result means no valid continuation exists. -/
theorem dfs_complete (placements pidx : List Nat)
    (hmono : ∀ j, j < pidx.length - 1 → pidx.getD j 0 < pidx.getD (j + 1) 0)
    (hlast : pidx.getLast? = some placements.length)
    (hlen2 : 2 ≤ pidx.length)
    (hnz : ∀ x ∈ placements, x ≠ 0) :
    ∀ k s b, dfs placements pidx k s b = none →
    ∀ r, ¬ SelFrom placements pidx k s b r := by
  intro k s b
  induction k, s, b using dfs.induct placements pidx with
  | case1 k s b hk =>
    intro hr
    rw [dfs_terminal placements pidx k s b hk] at hr
    exact absurd hr (by simp)
  | case2 k s b hk hs =>
    intro _ r hsel
    cases r with
    | nil => exact hk hsel
    | cons j rest =>
      obtain ⟨h1, h2, h3, h4, h5⟩ := hsel
      omega
  | case3 k s b hk hs hm =>
    intro _ r hsel
    have hblen : pidx.getD (k + 1) 0 ≤ placements.length :=
      pidx_le_placements hmono hlast (by omega) (k + 1) (by omega)
    rcases findMove_master placements b (pidx.getD (k + 1) 0) _ s rfl (by omega) hblen with
      ⟨j, _, _, hfm, _, _⟩ | ⟨hfm, _⟩
    · rw [hm] at hfm
      exact absurd hfm (by simp)
    · rw [hm] at hfm
      exact absurd hfm (by simp)
  | case4 k s b hk hs pj hm hz =>
    intro _ r hsel
    have hblen : pidx.getD (k + 1) 0 ≤ placements.length :=
      pidx_le_placements hmono hlast (by omega) (k + 1) (by omega)
    rcases findMove_master placements b (pidx.getD (k + 1) 0) _ s rfl (by omega) hblen with
      ⟨j, hj1, hj2, hfm, hj4, hj5⟩ | ⟨hfm, hconf⟩
    · rw [hm] at hfm
      simp only [Option.some.injEq] at hfm
      have hj0 : placements.getD j 0 = 0 := by
        have h2 : pj.1 = placements.getD j 0 := by rw [hfm]
        omega
      have hmem : placements.getD j 0 ∈ placements := by
        have hq := get?_eq_some_getD (show j < placements.length by omega)
        exact List.get?_mem hq
      exact absurd hj0 (hnz _ hmem)
    · cases r with
      | nil => exact hk hsel
      | cons j rest =>
        obtain ⟨h1, h2, h3, h4, h5⟩ := hsel
        exact hconf j h2 h3 h4
  | case5 k s b hk hs pj hm hz rest hrest ih =>
    intro hnone
    rw [dfs_of_found placements pidx k s b pj hk hs hm hz, hrest] at hnone
    exact absurd hnone (by simp)
  | case6 k s b hk hs pj hm hz hcn ih1 ih2 =>
    intro hnone r hsel
    rw [dfs_of_found placements pidx k s b pj hk hs hm hz, hcn] at hnone
    have hblen : pidx.getD (k + 1) 0 ≤ placements.length :=
      pidx_le_placements hmono hlast (by omega) (k + 1) (by omega)
    rcases findMove_master placements b (pidx.getD (k + 1) 0) _ s rfl (by omega) hblen with
      ⟨j0, hj1, hj2, hfm, hj4, hj5⟩ | ⟨hfm, hconf⟩
    · rw [hm] at hfm
      simp only [Option.some.injEq, Prod.ext_iff] at hfm
      obtain ⟨hfm1, hfm2⟩ := hfm
      cases r with
      | nil => exact hk hsel
      | cons j rest2 =>
        obtain ⟨h1, h2, h3, h4, h5⟩ := hsel
        rcases Nat.lt_trichotomy j j0 with hjj | hjj | hjj
        · exact hj5 j h2 hjj h4
        · subst hjj
          apply ih1 hcn rest2
          rw [← hfm1] at h5
          exact h5
        · apply ih2 hnone (j :: rest2)
          exact ⟨h1, by omega, h3, h4, h5⟩
    · rw [hm] at hfm
      simp only [Option.some.injEq] at hfm
      have : pj.1 = 0 := by rw [hfm]
      exact absurd this hz

/-! ### Sequential validity versus the pairwise form of the spec -/

theorem SelFrom_props (placements pidx : List Nat) :
    ∀ (r : List Nat) (k s b : Nat), pidx.getD k 0 ≤ s →
    SelFrom placements pidx k s b r →
    r.length = pidx.length - 1 - k ∧
    (∀ t, t < r.length →
      pidx.getD (k + t) 0 ≤ r.getD t 0 ∧ r.getD t 0 < pidx.getD (k + t + 1) 0) ∧
    (∀ x ∈ r.map (fun j => placements.getD j 0), x &&& b = 0) ∧
    List.Pairwise (fun a c => a &&& c = 0) (r.map (fun j => placements.getD j 0)) := by
  intro r
  induction r with
  | nil =>
    intro k s b hks hsel
    have hk : pidx.length - 1 ≤ k := hsel
    refine ⟨by simp; omega, by simp, by simp, by simp⟩
  | cons j rest ih =>
    intro k s b hks hsel
    obtain ⟨h1, h2, h3, h4, h5⟩ := hsel
    obtain ⟨ih1, ih2, ih3, ih4⟩ := ih (k + 1) (pidx.getD (k + 1) 0)
      (b ||| placements.getD j 0) (le_refl _) h5
    refine ⟨?_, ?_, ?_, ?_⟩
    · simp only [List.length_cons]
      omega
    · intro t ht
      cases t with
      | zero =>
        simp only [List.getD_cons_zero, Nat.add_zero]
        exact ⟨by omega, h3⟩
      | succ t =>
        simp only [List.getD_cons_succ]
        have := ih2 t (by simpa using ht)
        constructor
        · have harr : k + 1 + t = k + (t + 1) := by omega
          rw [← harr]
          exact this.1
        · have harr : k + 1 + t + 1 = k + (t + 1) + 1 := by omega
          rw [← harr]
          exact this.2
    · intro x hx
      simp only [List.map_cons, List.mem_cons] at hx
      rcases hx with rfl | hx
      · exact h4
      · have := ih3 x hx
        exact ((and_or_eq_zero_iff _ _ _).mp this).1
    · simp only [List.map_cons, List.pairwise_cons]
      constructor
      · intro x hx
        have := ih3 x hx
        have h2z := ((and_or_eq_zero_iff _ _ _).mp this).2
        rw [Nat.and_comm] at h2z
        exact h2z
      · exact ih4

theorem toSelFrom (placements pidx : List Nat) :
    ∀ (r : List Nat) (k b : Nat),
    r.length = pidx.length - 1 - k →
    (∀ t, t < r.length →
      pidx.getD (k + t) 0 ≤ r.getD t 0 ∧ r.getD t 0 < pidx.getD (k + t + 1) 0) →
    (∀ x ∈ r.map (fun j => placements.getD j 0), x &&& b = 0) →
    List.Pairwise (fun a c => a &&& c = 0) (r.map (fun j => placements.getD j 0)) →
    k ≤ pidx.length - 1 →
    SelFrom placements pidx k (pidx.getD k 0) b r := by
  intro r
  induction r with
  | nil =>
    intro k b hlen _ _ _ hk
    have : pidx.length - 1 ≤ k := by
      simp only [List.length_nil] at hlen
      omega
    exact this
  | cons j rest ih =>
    intro k b hlen hrange hdisj hpw hk
    have hklt : k < pidx.length - 1 := by
      simp only [List.length_cons] at hlen
      omega
    have h0 := hrange 0 (by simp)
    simp only [List.getD_cons_zero, Nat.add_zero] at h0
    simp only [List.map_cons, List.pairwise_cons] at hpw
    refine ⟨hklt, h0.1, h0.2, hdisj _ (by simp), ?_⟩
    apply ih (k + 1)
    · simp only [List.length_cons] at hlen
      omega
    · intro t ht
      have := hrange (t + 1) (by simpa using ht)
      simp only [List.getD_cons_succ] at this
      constructor
      · have harr : k + (t + 1) = k + 1 + t := by omega
        rw [harr] at this
        exact this.1
      · have harr : k + (t + 1) + 1 = k + 1 + t + 1 := by omega
        rw [harr] at this
        exact this.2
    · intro x hx
      rw [and_or_eq_zero_iff]
      refine ⟨hdisj x (by
        simp only [List.map_cons]
        exact List.mem_cons_of_mem _ hx), ?_⟩
      have := hpw.1 x hx
      rw [Nat.and_comm] at this
      exact this
    · exact hpw.2
    · omega

/-- The two formulations of a full valid selection agree. -/
theorem validSelection_iff_selFrom (initial : Nat) (placements pidx : List Nat)
    (hlen2 : 2 ≤ pidx.length) (r : List Nat) :
    ValidSelection initial placements pidx r ↔
    SelFrom placements pidx 0 (pidx.getD 0 0) initial r := by
  constructor
  · rintro ⟨h1, h2, h3⟩
    rw [List.pairwise_cons] at h3
    apply toSelFrom placements pidx r 0 initial (by omega)
    · intro t ht
      simpa using h2 t ht
    · intro x hx
      have := h3.1 x hx
      rw [Nat.and_comm] at this
      exact this
    · exact h3.2
    · omega
  · intro hsel
    obtain ⟨h1, h2, h3, h4⟩ := SelFrom_props placements pidx r 0
      (pidx.getD 0 0) initial (le_refl _) hsel
    refine ⟨by omega, ?_, ?_⟩
    · intro t ht
      simpa using h2 t ht
    · rw [List.pairwise_cons]
      constructor
      · intro x hx
        have := h3 x hx
        rw [Nat.and_comm] at this
        exact this
      · exact h4

/-! ### Congruence and decomposition lemmas for the state abstraction -/

/-- Outcome of the pending levels strictly below `i` (the walk-back
continuation). -/
def pendingPop (placements pidx sel boards : List Nat) : Nat → Option (List Nat)
  | 0 => none
  | i + 1 => pending placements pidx sel boards i (boards.getD i 0)

/-- Iteration bound of the pending levels strictly below `i`. -/
def phiPop (placements pidx sel boards : List Nat) : Nat → Nat
  | 0 => 0
  | i + 1 => phi placements pidx sel boards i (boards.getD i 0)

theorem pending_split (placements pidx sel boards : List Nat) (i board : Nat) :
    pending placements pidx sel boards i board =
      match dfs placements pidx i (sel.getD i 0) board with
      | some rest => some (prefixSel sel i ++ rest)
      | none => pendingPop placements pidx sel boards i := by
  cases i with
  | zero =>
    rw [pending]
    cases dfs placements pidx 0 (sel.getD 0 0) board <;> rfl
  | succ i =>
    rw [pending]
    cases dfs placements pidx (i + 1) (sel.getD (i + 1) 0) board <;> rfl

theorem phi_split (placements pidx sel boards : List Nat) (i board : Nat) :
    phi placements pidx sel boards i board =
      dfsSteps placements pidx i (sel.getD i 0) board +
        phiPop placements pidx sel boards i := by
  cases i with
  | zero => rw [phi]; rfl
  | succ i => rw [phi]; rfl

theorem pending_congr (placements pidx boards : List Nat) :
    ∀ (i : Nat) (sel1 sel2 : List Nat) (board : Nat),
    sel1.length = sel2.length →
    (∀ j, j ≤ i → sel1.getD j 0 = sel2.getD j 0) →
    pending placements pidx sel1 boards i board =
      pending placements pidx sel2 boards i board := by
  intro i
  induction i with
  | zero =>
    intro sel1 sel2 board hlen h
    rw [pending, pending, h 0 (le_refl _)]
    cases dfs placements pidx 0 (sel2.getD 0 0) board <;> rfl
  | succ i ih =>
    intro sel1 sel2 board hlen h
    rw [pending, pending, h (i + 1) (le_refl _)]
    have hpre : prefixSel sel1 (i + 1) = prefixSel sel2 (i + 1) := by
      unfold prefixSel
      rw [take_eq_of_getD_eq hlen (i + 1) (fun t ht => h t (by omega))]
    cases dfs placements pidx (i + 1) (sel2.getD (i + 1) 0) board with
    | some rest => rw [hpre]
    | none => exact ih sel1 sel2 (boards.getD i 0) hlen (fun j hj => h j (by omega))

theorem phi_congr (placements pidx boards : List Nat) :
    ∀ (i : Nat) (sel1 sel2 : List Nat) (board : Nat),
    (∀ j, j ≤ i → sel1.getD j 0 = sel2.getD j 0) →
    phi placements pidx sel1 boards i board =
      phi placements pidx sel2 boards i board := by
  intro i
  induction i with
  | zero =>
    intro sel1 sel2 board h
    rw [phi, phi, h 0 (le_refl _)]
  | succ i ih =>
    intro sel1 sel2 board h
    rw [phi, phi, h (i + 1) (le_refl _),
      ih sel1 sel2 (boards.getD i 0) (fun j hj => h j (by omega))]

theorem pendingPop_congr (placements pidx boards : List Nat)
    (i : Nat) (sel1 sel2 : List Nat)
    (hlen : sel1.length = sel2.length)
    (h : ∀ j, j < i → sel1.getD j 0 = sel2.getD j 0) :
    pendingPop placements pidx sel1 boards i =
      pendingPop placements pidx sel2 boards i := by
  cases i with
  | zero => rfl
  | succ i =>
    rw [pendingPop, pendingPop]
    exact pending_congr placements pidx boards i sel1 sel2 _ hlen
      (fun j hj => h j (by omega))

theorem phiPop_congr (placements pidx boards : List Nat)
    (i : Nat) (sel1 sel2 : List Nat)
    (h : ∀ j, j < i → sel1.getD j 0 = sel2.getD j 0) :
    phiPop placements pidx sel1 boards i =
      phiPop placements pidx sel2 boards i := by
  cases i with
  | zero => rfl
  | succ i =>
    rw [phiPop, phiPop]
    exact phi_congr placements pidx boards i sel1 sel2 _ (fun j hj => h j (by omega))

/-- Behavior of the walk-back loop from level `l` with resume pointers
`sel1`: it never panics; either every level below `l` is exhausted and the
search reports failure, or it stops at the deepest non-exhausted level
`l2`, restores that level's saved board, and resets the resume pointers of
the levels in between — in all cases realizing the pending-levels
abstraction. -/
theorem walkBack_spec (placements pidx boards : List Nat) :
    ∀ (l : Nat) (sel1 : List Nat),
    sel1.length = pidx.length →
    boards.length = pidx.length - 1 →
    l < pidx.length - 1 →
    (∀ j, j < l → pidx.getD j 0 < sel1.getD j 0 ∧ sel1.getD j 0 ≤ pidx.getD (j + 1) 0) →
    (walkBack pidx boards l sel1 = some none ∧
      pendingPop placements pidx sel1 boards l = none) ∨
    (∃ l2 sel2, walkBack pidx boards l sel1 = some (some (l2, boards.getD l2 0, sel2)) ∧
      l2 < l ∧
      sel2.length = pidx.length ∧
      (∀ j, j ≤ l2 → sel2.getD j 0 = sel1.getD j 0) ∧
      (∀ j, l2 < j → j < l → sel2.getD j 0 = pidx.getD j 0) ∧
      (∀ j, l ≤ j → sel2.getD j 0 = sel1.getD j 0) ∧
      sel1.getD l2 0 ≠ pidx.getD (l2 + 1) 0 ∧
      pending placements pidx sel2 boards l2 (boards.getD l2 0) =
        pendingPop placements pidx sel1 boards l ∧
      phi placements pidx sel2 boards l2 (boards.getD l2 0) ≤
        phiPop placements pidx sel1 boards l) := by
  intro l
  induction l with
  | zero =>
    intro sel1 _ _ _ _
    left
    exact ⟨rfl, rfl⟩
  | succ l ih =>
    intro sel1 hlen hbs hl hc
    have hq1 : pidx.get? (l + 1) = some (pidx.getD (l + 1) 0) :=
      get?_eq_some_getD (by omega)
    have hq2 : sel1.get? l = some (sel1.getD l 0) :=
      get?_eq_some_getD (by omega)
    have hNl : ¬ pidx.length - 1 ≤ l := by omega
    by_cases hex : sel1.getD l 0 = pidx.getD (l + 1) 0
    · -- level l is exhausted: reset it and keep walking back
      have hq3 : pidx.get? l = some (pidx.getD l 0) := get?_eq_some_getD (by omega)
      have hwb : walkBack pidx boards (l + 1) sel1 =
          walkBack pidx boards l (sel1.set l (pidx.getD l 0)) := by
        rw [walkBack, hq1, hq2]
        simp only []
        rw [if_pos hex, hq3]
      -- dfs at the exhausted level l fails by the slice-end guard
      have hdfsl : dfs placements pidx l (sel1.getD l 0) (boards.getD l 0) = none :=
        dfs_guard placements pidx l _ _ hNl (by omega)
      have hpopstep : pendingPop placements pidx sel1 boards (l + 1) =
          pendingPop placements pidx sel1 boards l := by
        rw [pendingPop, pending_split, hdfsl]
      have hphistep : phiPop placements pidx sel1 boards l ≤
          phiPop placements pidx sel1 boards (l + 1) := by
        rw [phiPop, phi_split,
          dfsSteps_guard placements pidx l _ _ hNl (by omega)]
        omega
      set sel1b := sel1.set l (pidx.getD l 0) with hsel1b
      have hlenb : sel1b.length = pidx.length := by
        rw [hsel1b, List.length_set, hlen]
      have hagree : ∀ j, j < l → sel1b.getD j 0 = sel1.getD j 0 := by
        intro j hj
        rw [hsel1b]
        exact getD_set_ne _ (by omega)
      have hcb : ∀ j, j < l →
          pidx.getD j 0 < sel1b.getD j 0 ∧ sel1b.getD j 0 ≤ pidx.getD (j + 1) 0 := by
        intro j hj
        rw [hagree j hj]
        exact hc j (by omega)
      have hpop_congr : pendingPop placements pidx sel1b boards l =
          pendingPop placements pidx sel1 boards l :=
        pendingPop_congr placements pidx boards l sel1b sel1 (by rw [hlenb, hlen])
          (fun j hj => hagree j hj)
      have hphi_congr : phiPop placements pidx sel1b boards l =
          phiPop placements pidx sel1 boards l :=
        phiPop_congr placements pidx boards l sel1b sel1 (fun j hj => hagree j hj)
      rcases ih sel1b hlenb hbs (by omega) hcb with ⟨hw, hp⟩ | ⟨l2, sel2, hw, hl2, hlen2, ha1, ha2, ha3, hne, hpend, hphi⟩
      · left
        rw [hwb, hpopstep, ← hpop_congr]
        exact ⟨hw, hp⟩
      · right
        refine ⟨l2, sel2, by rw [hwb]; exact hw, by omega, hlen2, ?_, ?_, ?_, ?_, ?_, ?_⟩
        · intro j hj
          rw [ha1 j hj, hsel1b, getD_set_ne _ (by omega)]
        · intro j hj1 hj2
          by_cases hjl : j < l
          · exact ha2 j hj1 hjl
          · obtain rfl : j = l := by omega
            rw [ha3 j (le_refl _), hsel1b, getD_set_self _ (by omega)]
        · intro j hj
          rw [ha3 j (by omega), hsel1b, getD_set_ne _ (by omega)]
        · rw [← hagree l2 (by omega)]
          exact hne
        · rw [hpend, hpop_congr, hpopstep]
        · calc phi placements pidx sel2 boards l2 (boards.getD l2 0)
              ≤ phiPop placements pidx sel1b boards l := hphi
            _ = phiPop placements pidx sel1 boards l := hphi_congr
            _ ≤ phiPop placements pidx sel1 boards (l + 1) := hphistep
    · -- level l still has untried candidates: stop here
      right
      have hq4 : boards.get? l = some (boards.getD l 0) := by
        apply get?_eq_some_getD
        omega
      refine ⟨l, sel1, ?_, by omega, hlen,
        fun j hj => rfl, fun j hj1 hj2 => by omega, fun j hj => rfl, hex, rfl, ?_⟩
      · rw [walkBack, hq1, hq2]
        simp only []
        rw [if_neg hex, hq4]
      · rw [phiPop]

/-! ### Unfolding lemmas for one loop iteration -/

theorem btStep_commit_cont (placements pidx : List Nat) (st : BTState)
    (sel0 bound : Nat) (pj : Nat × Nat)
    (h0 : st.selected.get? st.i = some sel0)
    (h1 : st.selected.get? (st.i + 1) = some bound)
    (hm : findMove placements st.board bound sel0 = some pj)
    (hz : pj.1 ≠ 0)
    (hnb : ¬ (st.i + 1 = pidx.length - 1)) :
    btStep placements pidx st = some (Sum.inl
      { selected := st.selected.set st.i (pj.2 + 1)
        boards := st.boards.set st.i st.board
        i := st.i + 1
        board := st.board ||| pj.1 }) := by
  unfold btStep
  rw [h0, h1]
  simp only [Option.bind_eq_bind, Option.some_bind]
  rw [hm]
  simp only [Option.some_bind, if_neg hz, if_neg hnb]
  rfl

theorem btStep_commit_break (placements pidx : List Nat) (st : BTState)
    (sel0 bound : Nat) (pj : Nat × Nat)
    (h0 : st.selected.get? st.i = some sel0)
    (h1 : st.selected.get? (st.i + 1) = some bound)
    (hm : findMove placements st.board bound sel0 = some pj)
    (hz : pj.1 ≠ 0)
    (hb : st.i + 1 = pidx.length - 1) :
    btStep placements pidx st = some (Sum.inr (some
      (((st.selected.set st.i (pj.2 + 1)).take
          ((st.selected.set st.i (pj.2 + 1)).length - 1)).map (fun x => x - 1)))) := by
  unfold btStep
  rw [h0, h1]
  simp only [Option.bind_eq_bind, Option.some_bind]
  rw [hm]
  simp only [Option.some_bind, if_neg hz, if_pos hb]
  rfl

theorem btStep_exhaust_none (placements pidx : List Nat) (st : BTState)
    (sel0 bound pi : Nat) (pj : Nat × Nat)
    (h0 : st.selected.get? st.i = some sel0)
    (h1 : st.selected.get? (st.i + 1) = some bound)
    (hm : findMove placements st.board bound sel0 = some pj)
    (hz : pj.1 = 0)
    (hpi : pidx.get? st.i = some pi)
    (hwb : walkBack pidx st.boards st.i (st.selected.set st.i pi) = some none) :
    btStep placements pidx st = some (Sum.inr none) := by
  unfold btStep
  rw [h0, h1]
  simp only [Option.bind_eq_bind, Option.some_bind]
  rw [hm]
  simp only [Option.some_bind, if_pos hz]
  rw [hpi]
  simp only [Option.some_bind]
  rw [hwb]
  rfl

theorem btStep_exhaust_pop (placements pidx : List Nat) (st : BTState)
    (sel0 bound pi : Nat) (pj : Nat × Nat) (i2 b2 : Nat) (sel2 : List Nat)
    (h0 : st.selected.get? st.i = some sel0)
    (h1 : st.selected.get? (st.i + 1) = some bound)
    (hm : findMove placements st.board bound sel0 = some pj)
    (hz : pj.1 = 0)
    (hpi : pidx.get? st.i = some pi)
    (hwb : walkBack pidx st.boards st.i (st.selected.set st.i pi) =
      some (some (i2, b2, sel2))) :
    btStep placements pidx st = some (Sum.inl
      { selected := sel2, boards := st.boards, i := i2, board := b2 }) := by
  unfold btStep
  rw [h0, h1]
  simp only [Option.bind_eq_bind, Option.some_bind]
  rw [hm]
  simp only [Option.some_bind, if_pos hz]
  rw [hpi]
  simp only [Option.some_bind]
  rw [hwb]
  rfl

/-- The loop invariant of `backtrack` at the top of an iteration, under
the well-formedness contract on `placement_indices`. -/
structure LoopInv (placements pidx : List Nat) (st : BTState) : Prop where
  hlen2 : 2 ≤ pidx.length
  hmono : ∀ j, j < pidx.length - 1 → pidx.getD j 0 < pidx.getD (j + 1) 0
  hlast : pidx.getLast? = some placements.length
  hsel_len : st.selected.length = pidx.length
  hbs_len : st.boards.length = pidx.length - 1
  hi : st.i < pidx.length - 1
  hcur_lo : pidx.getD st.i 0 ≤ st.selected.getD st.i 0
  hcur_hi : st.selected.getD st.i 0 < pidx.getD (st.i + 1) 0
  hup : ∀ j, st.i < j → j < pidx.length → st.selected.getD j 0 = pidx.getD j 0
  hcommit : ∀ j, j < st.i →
    pidx.getD j 0 < st.selected.getD j 0 ∧ st.selected.getD j 0 ≤ pidx.getD (j + 1) 0

theorem pending_boards_congr (placements pidx : List Nat) :
    ∀ (i : Nat) (sel boards1 boards2 : List Nat) (board : Nat),
    (∀ j, j < i → boards1.getD j 0 = boards2.getD j 0) →
    pending placements pidx sel boards1 i board =
      pending placements pidx sel boards2 i board := by
  intro i
  induction i with
  | zero =>
    intro sel boards1 boards2 board _
    rw [pending, pending]
  | succ i ih =>
    intro sel boards1 boards2 board h
    rw [pending, pending]
    cases dfs placements pidx (i + 1) (sel.getD (i + 1) 0) board with
    | some rest => rfl
    | none =>
      rw [h i (by omega)]
      exact ih sel boards1 boards2 _ (fun j hj => h j (by omega))

theorem phi_boards_congr (placements pidx : List Nat) :
    ∀ (i : Nat) (sel boards1 boards2 : List Nat) (board : Nat),
    (∀ j, j < i → boards1.getD j 0 = boards2.getD j 0) →
    phi placements pidx sel boards1 i board =
      phi placements pidx sel boards2 i board := by
  intro i
  induction i with
  | zero =>
    intro sel boards1 boards2 board _
    rw [phi, phi]
  | succ i ih =>
    intro sel boards1 boards2 board h
    rw [phi, phi, h i (by omega), ih sel boards1 boards2 _ (fun j hj => h j (by omega))]

theorem pendingPop_boards_congr (placements pidx : List Nat)
    (i : Nat) (sel boards1 boards2 : List Nat)
    (h : ∀ j, j < i → boards1.getD j 0 = boards2.getD j 0) :
    pendingPop placements pidx sel boards1 i =
      pendingPop placements pidx sel boards2 i := by
  cases i with
  | zero => rfl
  | succ i =>
    rw [pendingPop, pendingPop, h i (by omega)]
    exact pending_boards_congr placements pidx i sel boards1 boards2 _
      (fun j hj => h j (by omega))

theorem phiPop_boards_congr (placements pidx : List Nat)
    (i : Nat) (sel boards1 boards2 : List Nat)
    (h : ∀ j, j < i → boards1.getD j 0 = boards2.getD j 0) :
    phiPop placements pidx sel boards1 i =
      phiPop placements pidx sel boards2 i := by
  cases i with
  | zero => rfl
  | succ i =>
    rw [phiPop, phiPop, h i (by omega)]
    exact phi_boards_congr placements pidx i sel boards1 boards2 _
      (fun j hj => h j (by omega))

/-- Loop-iteration behavior when the scan breaks with the sentinel `0`
(exhausted slice, or a zero candidate mask): the walk-back loop runs, and
the iteration either fails the whole search or resumes a previous level,
preserving the pending abstraction and decreasing the bound. -/
theorem btStep_spec_exhaust (placements pidx : List Nat) (st : BTState)
    (hinv : LoopInv placements pidx st) (pj : Nat × Nat)
    (hfm : findMove placements st.board (pidx.getD (st.i + 1) 0)
      (st.selected.getD st.i 0) = some pj)
    (hz : pj.1 = 0) :
    (∃ st2, btStep placements pidx st = some (Sum.inl st2) ∧
      LoopInv placements pidx st2 ∧
      pending placements pidx st2.selected st2.boards st2.i st2.board =
        pending placements pidx st.selected st.boards st.i st.board ∧
      phi placements pidx st2.selected st2.boards st2.i st2.board <
        phi placements pidx st.selected st.boards st.i st.board) ∨
    (btStep placements pidx st = some (Sum.inr none) ∧
      pending placements pidx st.selected st.boards st.i st.board = none) ∨
    (∃ r, btStep placements pidx st = some (Sum.inr (some r)) ∧
      pending placements pidx st.selected st.boards st.i st.board = some r) := by
  obtain ⟨hlen2, hmono, hlast, hsel_len, hbs_len, hi, hcur_lo, hcur_hi, hup, hcommit⟩ := hinv
  have h0 : st.selected.get? st.i = some (st.selected.getD st.i 0) :=
    get?_eq_some_getD (by omega)
  have hbup : st.selected.getD (st.i + 1) 0 = pidx.getD (st.i + 1) 0 :=
    hup (st.i + 1) (by omega) (by omega)
  have h1 : st.selected.get? (st.i + 1) = some (pidx.getD (st.i + 1) 0) := by
    rw [get?_eq_some_getD (show st.i + 1 < st.selected.length by omega), hbup]
  have hNi : ¬ pidx.length - 1 ≤ st.i := by omega
  have hsi : ¬ pidx.getD (st.i + 1) 0 ≤ st.selected.getD st.i 0 := by omega
  have hpi : pidx.get? st.i = some (pidx.getD st.i 0) := get?_eq_some_getD (by omega)
  -- the current level fails
  have hdfs : dfs placements pidx st.i (st.selected.getD st.i 0) st.board = none :=
    dfs_of_zero placements pidx st.i _ _ pj hNi hsi hfm hz
  have hsteps : dfsSteps placements pidx st.i (st.selected.getD st.i 0) st.board = 1 :=
    dfsSteps_of_zero placements pidx st.i _ _ pj hNi hsi hfm hz
  have hpend_st : pending placements pidx st.selected st.boards st.i st.board =
      pendingPop placements pidx st.selected st.boards st.i := by
    rw [pending_split, hdfs]
  have hphi_st : phi placements pidx st.selected st.boards st.i st.board =
      1 + phiPop placements pidx st.selected st.boards st.i := by
    rw [phi_split, hsteps]
  set selb := st.selected.set st.i (pidx.getD st.i 0) with hselb
  have hlenb : selb.length = pidx.length := by
    rw [hselb, List.length_set, hsel_len]
  have hagreeb : ∀ j, j < st.i → selb.getD j 0 = st.selected.getD j 0 := by
    intro j hj
    rw [hselb]
    exact getD_set_ne _ (by omega)
  have hcb : ∀ j, j < st.i →
      pidx.getD j 0 < selb.getD j 0 ∧ selb.getD j 0 ≤ pidx.getD (j + 1) 0 := by
    intro j hj
    rw [hagreeb j hj]
    exact hcommit j hj
  have hpop_congr : pendingPop placements pidx selb st.boards st.i =
      pendingPop placements pidx st.selected st.boards st.i :=
    pendingPop_congr placements pidx st.boards st.i selb st.selected
      (by rw [hlenb, hsel_len]) hagreeb
  have hphipop_congr : phiPop placements pidx selb st.boards st.i =
      phiPop placements pidx st.selected st.boards st.i :=
    phiPop_congr placements pidx st.boards st.i selb st.selected hagreeb
  rcases walkBack_spec placements pidx st.boards st.i selb hlenb hbs_len (by omega) hcb with
    ⟨hw, hp⟩ | ⟨l2, sel2, hw, hl2, hlen2s, ha1, ha2, ha3, hne, hpend, hphi⟩
  · right; left
    constructor
    · exact btStep_exhaust_none placements pidx st _ _ _ pj h0 h1 hfm hz hpi hw
    · rw [hpend_st, ← hpop_congr]
      exact hp
  · left
    have hselbl2 : selb.getD l2 0 = st.selected.getD l2 0 := hagreeb l2 (by omega)
    have hsel2i : sel2.getD l2 0 = st.selected.getD l2 0 :=
      (ha1 l2 (le_refl _)).trans hselbl2
    have hselbi : selb.getD st.i 0 = pidx.getD st.i 0 := by
      rw [hselb]
      exact getD_set_self _ (by omega)
    have hselb_hi : ∀ j, st.i < j → selb.getD j 0 = st.selected.getD j 0 := by
      intro j hj
      rw [hselb]
      exact getD_set_ne _ (by omega)
    refine ⟨⟨sel2, st.boards, l2, st.boards.getD l2 0⟩,
      btStep_exhaust_pop placements pidx st _ _ _ pj l2 _ sel2 h0 h1 hfm hz hpi hw,
      ?_, ?_, ?_⟩
    · -- the invariant at the resumed level
      refine ⟨hlen2, hmono, hlast, hlen2s, hbs_len, ?_, ?_, ?_, ?_, ?_⟩
      · show l2 < pidx.length - 1
        omega
      · show pidx.getD l2 0 ≤ sel2.getD l2 0
        rw [hsel2i]
        have := hcommit l2 (by omega)
        omega
      · show sel2.getD l2 0 < pidx.getD (l2 + 1) 0
        rw [hsel2i]
        have h2 := hcommit l2 (by omega)
        have h3 : st.selected.getD l2 0 ≠ pidx.getD (l2 + 1) 0 := by
          rw [← hselbl2]
          exact hne
        omega
      · show ∀ j, l2 < j → j < pidx.length → sel2.getD j 0 = pidx.getD j 0
        intro j hj1 hj2
        by_cases hjlt : j < st.i
        · exact ha2 j hj1 hjlt
        · by_cases hjeq : j = st.i
          · subst hjeq
            rw [ha3 st.i (le_refl _)]
            exact hselbi
          · rw [ha3 j (by omega), hselb_hi j (by omega)]
            exact hup j (by omega) hj2
      · show ∀ j, j < l2 →
          pidx.getD j 0 < sel2.getD j 0 ∧ sel2.getD j 0 ≤ pidx.getD (j + 1) 0
        intro j hj
        have e : sel2.getD j 0 = st.selected.getD j 0 :=
          (ha1 j (by omega)).trans (hagreeb j (by omega))
        rw [e]
        exact hcommit j (by omega)
    · show pending placements pidx sel2 st.boards l2 (st.boards.getD l2 0) =
        pending placements pidx st.selected st.boards st.i st.board
      rw [hpend_st, ← hpop_congr]
      exact hpend
    · show phi placements pidx sel2 st.boards l2 (st.boards.getD l2 0) <
        phi placements pidx st.selected st.boards st.i st.board
      rw [hphi_st, ← hphipop_congr]
      omega

/-- One iteration of the `backtrack` loop from an invariant state never
panics, and either continues in an invariant state with the same pending
outcome and a smaller bound, or returns exactly the pending outcome. -/
theorem btStep_spec (placements pidx : List Nat) (st : BTState)
    (hinv : LoopInv placements pidx st) :
    (∃ st2, btStep placements pidx st = some (Sum.inl st2) ∧
      LoopInv placements pidx st2 ∧
      pending placements pidx st2.selected st2.boards st2.i st2.board =
        pending placements pidx st.selected st.boards st.i st.board ∧
      phi placements pidx st2.selected st2.boards st2.i st2.board <
        phi placements pidx st.selected st.boards st.i st.board) ∨
    (btStep placements pidx st = some (Sum.inr none) ∧
      pending placements pidx st.selected st.boards st.i st.board = none) ∨
    (∃ r, btStep placements pidx st = some (Sum.inr (some r)) ∧
      pending placements pidx st.selected st.boards st.i st.board = some r) := by
  have hlen2 := hinv.hlen2
  have hmono := hinv.hmono
  have hlast := hinv.hlast
  have hsel_len := hinv.hsel_len
  have hbs_len := hinv.hbs_len
  have hi := hinv.hi
  have hcur_lo := hinv.hcur_lo
  have hcur_hi := hinv.hcur_hi
  have hup := hinv.hup
  have hcommit := hinv.hcommit
  have h0 : st.selected.get? st.i = some (st.selected.getD st.i 0) :=
    get?_eq_some_getD (by omega)
  have hbup : st.selected.getD (st.i + 1) 0 = pidx.getD (st.i + 1) 0 :=
    hup (st.i + 1) (by omega) (by omega)
  have h1 : st.selected.get? (st.i + 1) = some (pidx.getD (st.i + 1) 0) := by
    rw [get?_eq_some_getD (show st.i + 1 < st.selected.length by omega), hbup]
  have hNi : ¬ pidx.length - 1 ≤ st.i := by omega
  have hsi : ¬ pidx.getD (st.i + 1) 0 ≤ st.selected.getD st.i 0 := by omega
  have hblen : pidx.getD (st.i + 1) 0 ≤ placements.length :=
    pidx_le_placements hmono hlast (by omega) (st.i + 1) (by omega)
  rcases findMove_master placements st.board (pidx.getD (st.i + 1) 0)
    (pidx.getD (st.i + 1) 0 - st.selected.getD st.i 0) (st.selected.getD st.i 0)
    rfl (by omega) hblen with
    ⟨j, hj1, hj2, hfm, hj4, hj5⟩ | ⟨hfm, hconf⟩
  · by_cases hz : placements.getD j 0 = 0
    · exact btStep_spec_exhaust placements pidx st hinv (placements.getD j 0, j) hfm hz
    · -- commit candidate j
      have f2 : (st.selected.set st.i (j + 1)).getD st.i 0 = j + 1 :=
        getD_set_self _ (by omega)
      have f4 : ∀ t, t < st.i →
          (st.selected.set st.i (j + 1)).getD t 0 = st.selected.getD t 0 := by
        intro t ht
        exact getD_set_ne _ (by omega)
      have f5 : prefixSel (st.selected.set st.i (j + 1)) st.i =
          prefixSel st.selected st.i := by
        unfold prefixSel
        rw [take_eq_of_getD_eq (by rw [List.length_set]) st.i (fun t ht => f4 t ht)]
      have f6 : prefixSel (st.selected.set st.i (j + 1)) (st.i + 1) =
          prefixSel st.selected st.i ++ [j] := by
        unfold prefixSel
        rw [take_succ_set _ (by omega), List.map_append]
        rfl
      by_cases hb : st.i + 1 = pidx.length - 1
      · -- the last piece was just placed: the loop breaks with the solution
        right; right
        refine ⟨prefixSel st.selected st.i ++ [j], ?_, ?_⟩
        · have heq := btStep_commit_break placements pidx st _ _
            (placements.getD j 0, j) h0 h1 hfm hz hb
          rw [heq]
          have hlen_take : (st.selected.set st.i (j + 1)).length - 1 = st.i + 1 := by
            rw [List.length_set, hsel_len]
            omega
          simp only []
          rw [hlen_take, ← f6]
          rfl
        · rw [pending_split,
            dfs_of_found placements pidx st.i _ _ (placements.getD j 0, j) hNi hsi hfm hz,
            dfs_terminal placements pidx (st.i + 1) _ _ (by omega)]
      · -- advance to the next piece
        left
        have heq := btStep_commit_cont placements pidx st _ _
          (placements.getD j 0, j) h0 h1 hfm hz hb
        have f1 : (st.selected.set st.i (j + 1)).getD (st.i + 1) 0 =
            pidx.getD (st.i + 1) 0 := by
          rw [getD_set_ne _ (by omega)]
          exact hbup
        have f3 : (st.boards.set st.i st.board).getD st.i 0 = st.board :=
          getD_set_self _ (by omega)
        have f4b : ∀ t, t < st.i →
            (st.boards.set st.i st.board).getD t 0 = st.boards.getD t 0 := by
          intro t ht
          exact getD_set_ne _ (by omega)
        have hpop2 : pendingPop placements pidx (st.selected.set st.i (j + 1))
            (st.boards.set st.i st.board) st.i =
            pendingPop placements pidx st.selected st.boards st.i := by
          rw [pendingPop_congr placements pidx (st.boards.set st.i st.board) st.i
            (st.selected.set st.i (j + 1)) st.selected (by rw [List.length_set]) f4]
          exact pendingPop_boards_congr placements pidx st.i st.selected _ _ f4b
        have hphipop2 : phiPop placements pidx (st.selected.set st.i (j + 1))
            (st.boards.set st.i st.board) st.i =
            phiPop placements pidx st.selected st.boards st.i := by
          rw [phiPop_congr placements pidx (st.boards.set st.i st.board) st.i
            (st.selected.set st.i (j + 1)) st.selected f4]
          exact phiPop_boards_congr placements pidx st.i st.selected _ _ f4b
        refine ⟨⟨st.selected.set st.i (j + 1), st.boards.set st.i st.board,
          st.i + 1, st.board ||| placements.getD j 0⟩, heq, ?_, ?_, ?_⟩
        · -- invariant at the next level
          refine ⟨hlen2, hmono, hlast, ?_, ?_, ?_, ?_, ?_, ?_, ?_⟩
          · show (st.selected.set st.i (j + 1)).length = pidx.length
            rw [List.length_set, hsel_len]
          · show (st.boards.set st.i st.board).length = pidx.length - 1
            rw [List.length_set, hbs_len]
          · show st.i + 1 < pidx.length - 1
            omega
          · show pidx.getD (st.i + 1) 0 ≤
              (st.selected.set st.i (j + 1)).getD (st.i + 1) 0
            rw [f1]
          · show (st.selected.set st.i (j + 1)).getD (st.i + 1) 0 <
              pidx.getD (st.i + 1 + 1) 0
            rw [f1]
            exact hmono (st.i + 1) (by omega)
          · show ∀ t, st.i + 1 < t → t < pidx.length →
              (st.selected.set st.i (j + 1)).getD t 0 = pidx.getD t 0
            intro t ht1 ht2
            rw [getD_set_ne _ (by omega)]
            exact hup t (by omega) ht2
          · show ∀ t, t < st.i + 1 →
              pidx.getD t 0 < (st.selected.set st.i (j + 1)).getD t 0 ∧
              (st.selected.set st.i (j + 1)).getD t 0 ≤ pidx.getD (t + 1) 0
            intro t ht
            by_cases hti : t = st.i
            · subst hti
              rw [f2]
              omega
            · rw [f4 t (by omega)]
              exact hcommit t (by omega)
        · -- the pending outcome is preserved
          show pending placements pidx (st.selected.set st.i (j + 1))
              (st.boards.set st.i st.board) (st.i + 1)
              (st.board ||| placements.getD j 0) =
            pending placements pidx st.selected st.boards st.i st.board
          rw [pending_split, f1]
          rw [pending_split placements pidx st.selected st.boards st.i st.board,
            dfs_of_found placements pidx st.i _ _ (placements.getD j 0, j) hNi hsi hfm hz]
          simp only []
          cases hchild : dfs placements pidx (st.i + 1) (pidx.getD (st.i + 1) 0)
            (st.board ||| placements.getD j 0) with
          | some rest =>
            rw [f6]
            simp only []
            rw [← List.append_cons]
          | none =>
            rw [pendingPop, f3, pending_split, f2, f5]
            cases hsib : dfs placements pidx st.i (j + 1) st.board with
            | some rest => rfl
            | none => exact hpop2
        · -- the bound decreases
          show phi placements pidx (st.selected.set st.i (j + 1))
              (st.boards.set st.i st.board) (st.i + 1)
              (st.board ||| placements.getD j 0) <
            phi placements pidx st.selected st.boards st.i st.board
          rw [phi_split, f1, phiPop, f3, phi_split, f2, hphipop2]
          rw [phi_split placements pidx st.selected st.boards st.i st.board,
            dfsSteps_of_found placements pidx st.i _ _ (placements.getD j 0, j)
              hNi hsi hfm hz]
          simp only []
          omega
  · -- every candidate of the slice overlaps: the scan breaks with (0, bound)
    exact btStep_spec_exhaust placements pidx st hinv (0, pidx.getD (st.i + 1) 0) hfm rfl

/-- Fuel-indexed correctness of the loop: from an invariant state the run
realizes the pending abstraction, never panics, and completes within
`phi` iterations. -/
theorem btRun_spec (placements pidx : List Nat) :
    ∀ fuel st, LoopInv placements pidx st →
    (∀ r, btRun placements pidx fuel st = .solution r →
      pending placements pidx st.selected st.boards st.i st.board = some r) ∧
    (btRun placements pidx fuel st = .noSolution →
      pending placements pidx st.selected st.boards st.i st.board = none) ∧
    (btRun placements pidx fuel st ≠ .panic) ∧
    (phi placements pidx st.selected st.boards st.i st.board < fuel →
      btRun placements pidx fuel st ≠ .timeout) := by
  intro fuel
  induction fuel with
  | zero =>
    intro st hinv
    refine ⟨?_, ?_, ?_, ?_⟩
    · intro r hr
      exact absurd hr (by rw [btRun]; simp)
    · intro hr
      exact absurd hr (by rw [btRun]; simp)
    · rw [btRun]
      simp
    · intro h
      omega
  | succ fuel ih =>
    intro st hinv
    rcases btStep_spec placements pidx st hinv with
      ⟨st2, hstep, hinv2, hpend, hphi⟩ | ⟨hstep, hpend⟩ | ⟨r0, hstep, hpend⟩
    · have hrun : btRun placements pidx (fuel + 1) st = btRun placements pidx fuel st2 := by
        rw [btRun, hstep]
      obtain ⟨ih1, ih2, ih3, ih4⟩ := ih st2 hinv2
      refine ⟨?_, ?_, ?_, ?_⟩
      · intro r hr
        rw [hrun] at hr
        rw [← hpend]
        exact ih1 r hr
      · intro hr
        rw [hrun] at hr
        rw [← hpend]
        exact ih2 hr
      · rw [hrun]
        exact ih3
      · intro hlt
        rw [hrun]
        exact ih4 (by omega)
    · have hrun : btRun placements pidx (fuel + 1) st = .noSolution := by
        rw [btRun, hstep]
      refine ⟨?_, ?_, ?_, ?_⟩
      · intro r hr
        rw [hrun] at hr
        exact absurd hr (by simp)
      · intro _
        exact hpend
      · rw [hrun]
        simp
      · intro _
        rw [hrun]
        simp
    · have hrun : btRun placements pidx (fuel + 1) st = .solution r0 := by
        rw [btRun, hstep]
      refine ⟨?_, ?_, ?_, ?_⟩
      · intro r hr
        rw [hrun] at hr
        simp only [BTOutcome.solution.injEq] at hr
        rw [hpend, hr]
      · intro hr
        rw [hrun] at hr
        exact absurd hr (by simp)
      · rw [hrun]
        simp
      · intro _
        rw [hrun]
        simp

/-- The state set up by `backtrack` satisfies the loop invariant whenever
`placement_indices` meets its contract. -/
theorem backtrackInit_inv (initial : Nat) (placements pidx : List Nat)
    (hwf : WFIndices placements pidx) :
    LoopInv placements pidx (backtrackInit initial pidx) := by
  obtain ⟨h1, h2, h3⟩ := hwf
  refine ⟨h1, h2, h3, rfl, ?_, ?_, le_refl _, ?_, ?_, ?_⟩
  · show (List.replicate (pidx.length - 1) initial).length = pidx.length - 1
    rw [List.length_replicate]
  · show 0 < pidx.length - 1
    omega
  · exact h2 0 (by omega)
  · intro j _ _
    rfl
  · intro j hj
    simp only [backtrackInit] at hj
    omega

/-- Fuel bound sufficient for the whole search. -/
def backtrackFuel (initial : Nat) (placements pidx : List Nat) : Nat :=
  phi placements pidx pidx (List.replicate (pidx.length - 1) initial) 0 initial + 1

/-- The run of `backtrack` realizes the reference search `dfs`: a solution
is exactly a `dfs` result, failure is exactly `dfs` failure, no panic
occurs, and `backtrackFuel` iterations always suffice. -/
theorem backtrack_run (initial : Nat) (placements pidx : List Nat)
    (hwf : WFIndices placements pidx) (fuel : Nat) :
    (∀ r, backtrack fuel initial placements pidx = .solution r →
      dfs placements pidx 0 (pidx.getD 0 0) initial = some r) ∧
    (backtrack fuel initial placements pidx = .noSolution →
      dfs placements pidx 0 (pidx.getD 0 0) initial = none) ∧
    backtrack fuel initial placements pidx ≠ .panic ∧
    (backtrackFuel initial placements pidx ≤ fuel →
      backtrack fuel initial placements pidx ≠ .timeout) := by
  have hinv := backtrackInit_inv initial placements pidx hwf
  obtain ⟨s1, s2, s3, s4⟩ := btRun_spec placements pidx fuel (backtrackInit initial pidx) hinv
  have hpi : pending placements pidx (backtrackInit initial pidx).selected
      (backtrackInit initial pidx).boards (backtrackInit initial pidx).i
      (backtrackInit initial pidx).board =
      match dfs placements pidx 0 (pidx.getD 0 0) initial with
      | some rest => some rest
      | none => none := by
    show pending placements pidx pidx (List.replicate (pidx.length - 1) initial) 0
      initial = _
    rw [pending]
    cases dfs placements pidx 0 (pidx.getD 0 0) initial with
    | some rest =>
      show some (prefixSel pidx 0 ++ rest) = some rest
      rw [show prefixSel pidx 0 = [] from rfl, List.nil_append]
    | none => rfl
  refine ⟨?_, ?_, s3, ?_⟩
  · intro r hr
    have := s1 r hr
    rw [hpi] at this
    cases hdfs : dfs placements pidx 0 (pidx.getD 0 0) initial with
    | some rest =>
      rw [hdfs] at this
      simp only [Option.some.injEq] at this
      rw [this]
    | none =>
      rw [hdfs] at this
      exact absurd this (by simp)
  · intro hr
    have := s2 hr
    rw [hpi] at this
    cases hdfs : dfs placements pidx 0 (pidx.getD 0 0) initial with
    | some rest =>
      rw [hdfs] at this
      exact absurd this (by simp)
    | none => rfl
  · intro hfuel
    have hphieq : phi placements pidx (backtrackInit initial pidx).selected
        (backtrackInit initial pidx).boards (backtrackInit initial pidx).i
        (backtrackInit initial pidx).board =
        phi placements pidx pidx (List.replicate (pidx.length - 1) initial) 0 initial := rfl
    apply s4
    unfold backtrackFuel at hfuel
    omega

/-! ### The claim-level theorems about the search -/

/-- C10: under the documented contract on `placement_indices` — at least
two entries, strictly increasing, last entry equal to the length of
`placements` — every array access performed by `backtrack` is in bounds:
the run never reaches the panic outcome, for any fuel. -/
theorem backtrack_no_panic (fuel initial : Nat) (placements pidx : List Nat)
    (hwf : WFIndices placements pidx) :
    backtrack fuel initial placements pidx ≠ .panic :=
  (backtrack_run initial placements pidx hwf fuel).2.2.1

/-- Witness for C10 on a concrete well-formed input. -/
theorem backtrack_no_panic_witness :
    WFIndices [3, 12] [0, 1, 2] ∧ backtrack 10 0 [3, 12] [0, 1, 2] ≠ .panic :=
  ⟨by decide, backtrack_no_panic 10 0 [3, 12] [0, 1, 2] (by decide)⟩

/-- C1 is false as stated: on the two-piece instance with candidates
`[0b0011, 0b1100]` and slices `[0,1), [1,2)`, piece 1's winning candidate
is global index 1, whose index within its own slice is `1 - 1 = 0`; the
claim therefore predicts the result `[0, 0]`, but `backtrack` returns the
global indices `[0, 1]`. -/
theorem backtrack_local_index_counterexample :
    backtrack 10 0 [3, 12] [0, 1, 2] = .solution [0, 1] ∧ [0, 1] ≠ [0, 0] := by
  decide

/-- C1 (amended): under the contract on `placement_indices`, a successful
search returns one entry per piece, and the entry for piece `k` is the
winning candidate's global index into `placements`, lying inside piece
`k`'s slice `[placement_indices[k], placement_indices[k+1])` (so the
piece-local index is the entry minus the slice start, not the entry
itself). -/
theorem backtrack_solution_indices (fuel initial : Nat) (placements pidx : List Nat)
    (hwf : WFIndices placements pidx) (r : List Nat)
    (hr : backtrack fuel initial placements pidx = .solution r) :
    r.length = pidx.length - 1 ∧
    (∀ k, k < r.length →
      pidx.getD k 0 ≤ r.getD k 0 ∧ r.getD k 0 < pidx.getD (k + 1) 0) := by
  have hdfs := (backtrack_run initial placements pidx hwf fuel).1 r hr
  have hsel := dfs_sound placements pidx 0 (pidx.getD 0 0) initial r hdfs
  obtain ⟨h1, h2, _, _⟩ := SelFrom_props placements pidx r 0 _ initial (le_refl _) hsel
  refine ⟨by omega, ?_⟩
  intro k hk
  simpa using h2 k hk

/-- Witness for C1 (amended): on the two-piece instance the result is
`[0, 1]`, with entry `k` inside slice `k`. -/
theorem backtrack_solution_indices_witness :
    ([0, 1] : List Nat).length = ([0, 1, 2] : List Nat).length - 1 ∧
    (∀ k, k < ([0, 1] : List Nat).length →
      List.getD [0, 1, 2] k 0 ≤ List.getD [0, 1] k 0 ∧
      List.getD [0, 1] k 0 < List.getD [0, 1, 2] (k + 1) 0) :=
  backtrack_solution_indices 10 0 [3, 12] [0, 1, 2] (by decide) [0, 1] (by decide)

/-- C2: whenever the search returns a result (under the contract on
`placement_indices`), the chosen masks together with `initial_board` are
pairwise disjoint — no bit is set in more than one of them; and on the
two-piece example (initial mask 0, piece A candidate 0b0011, piece B
candidate 0b1100) it selects one candidate per slice and the OR of the
initial mask and the chosen masks is the full board mask 0b1111. -/
theorem backtrack_solution_disjoint :
    (∀ (fuel initial : Nat) (placements pidx : List Nat) (r : List Nat),
      WFIndices placements pidx →
      backtrack fuel initial placements pidx = .solution r →
      List.Pairwise (fun a b => a &&& b = 0)
        (initial :: r.map (fun j => placements.getD j 0))) ∧
    (backtrack 10 0 [3, 12] [0, 1, 2] = .solution [0, 1] ∧
      orAll (0 :: ([0, 1] : List Nat).map (fun j => List.getD [3, 12] j 0)) = 15) := by
  constructor
  · intro fuel initial placements pidx r hwf hr
    have hdfs := (backtrack_run initial placements pidx hwf fuel).1 r hr
    have hsel := dfs_sound placements pidx 0 (pidx.getD 0 0) initial r hdfs
    obtain ⟨_, _, h3, h4⟩ := SelFrom_props placements pidx r 0 _ initial (le_refl _) hsel
    rw [List.pairwise_cons]
    constructor
    · intro x hx
      have := h3 x hx
      rw [Nat.and_comm] at this
      exact this
    · exact h4
  · constructor
    · decide
    · decide

/-- Witness for C2's universal part, at the two-piece example. -/
theorem backtrack_solution_disjoint_witness :
    List.Pairwise (fun a b => a &&& b = 0)
      ((0 : Nat) :: ([0, 1] : List Nat).map (fun j => List.getD [3, 12] j 0)) :=
  backtrack_solution_disjoint.1 10 0 [3, 12] [0, 1, 2] [0, 1] (by decide) (by decide)

/-- C3 is false as stated: a zero candidate mask is indistinguishable from
the search's exhaustion sentinel.  With initial board 0b0011 and one piece
whose slice is `[0b0011, 0, 0b1100]`, the scan reaches the zero mask
(disjoint from every board), treats the slice as exhausted and returns
"no solution", even though choosing index 2 (mask 0b1100) is a valid
selection. -/
theorem backtrack_none_iff_counterexample :
    backtrack 10 3 [3, 0, 12] [0, 3] = .noSolution ∧
    ValidSelection 3 [3, 0, 12] [0, 3] [2] := by
  decide

/-- C3 (amended): under the contract on `placement_indices` and the added
precondition that every candidate mask is nonzero, the search reports "no
solution" (for some — equivalently, any sufficient — fuel) exactly when no
choice of one candidate per piece slice is pairwise disjoint together with
`initial_board`; in particular, when piece B's only candidate equals piece
A's only candidate (both 0b0011), the search returns "no solution". -/
theorem backtrack_noSolution_iff (initial : Nat) (placements pidx : List Nat)
    (hwf : WFIndices placements pidx)
    (hnz : ∀ x ∈ placements, x ≠ 0) :
    ((∃ fuel, backtrack fuel initial placements pidx = .noSolution) ↔
      ¬ ∃ r, ValidSelection initial placements pidx r) ∧
    backtrack 10 0 [3, 3] [0, 1, 2] = .noSolution := by
  obtain ⟨hlen2, hmono, hlast⟩ := hwf
  constructor
  · constructor
    · rintro ⟨fuel, hrun⟩ ⟨r, hval⟩
      have hdfs := (backtrack_run initial placements pidx ⟨hlen2, hmono, hlast⟩ fuel).2.1 hrun
      have hsel := (validSelection_iff_selFrom initial placements pidx hlen2 r).mp hval
      exact dfs_complete placements pidx hmono hlast hlen2 hnz 0 _ initial hdfs r hsel
    · intro hnone
      refine ⟨backtrackFuel initial placements pidx, ?_⟩
      have hdfsnone : dfs placements pidx 0 (pidx.getD 0 0) initial = none := by
        cases hdfs : dfs placements pidx 0 (pidx.getD 0 0) initial with
        | none => rfl
        | some r =>
          exfalso
          apply hnone
          refine ⟨r, ?_⟩
          rw [validSelection_iff_selFrom initial placements pidx hlen2 r]
          exact dfs_sound placements pidx 0 _ initial r hdfs
      obtain ⟨s1, s2, s3, s4⟩ := backtrack_run initial placements pidx
        ⟨hlen2, hmono, hlast⟩ (backtrackFuel initial placements pidx)
      cases hout : backtrack (backtrackFuel initial placements pidx) initial
        placements pidx with
      | panic => exact absurd hout s3
      | timeout => exact absurd hout (s4 (le_refl _))
      | noSolution => rfl
      | solution r =>
        have := s1 r hout
        rw [hdfsnone] at this
        exact absurd this (by simp)
  · decide

/-- Witness for C3 (amended) on the duplicated-candidate example. -/
theorem backtrack_noSolution_iff_witness :
    (((∃ fuel, backtrack fuel 0 [3, 3] [0, 1, 2] = .noSolution) ↔
      ¬ ∃ r, ValidSelection 0 [3, 3] [0, 1, 2] r) ∧
      backtrack 10 0 [3, 3] [0, 1, 2] = .noSolution) :=
  backtrack_noSolution_iff 0 [3, 3] [0, 1, 2] (by decide) (by decide)

/-- C9: the search uses mask 0 as its slice-exhaustion sentinel.  A zero
entry is disjoint from every board, so the scan breaks on it immediately
with placement 0 — exactly the sentinel — and the loop then backtracks,
skipping every later candidate of the slice.  Concretely, with initial
board 0b0011 and the single slice `[0b0011, 0, 0b1100]`, the scan stops at
the zero entry and the search reports "no solution" although the later
candidate 0b1100 is disjoint and forms a valid selection. -/
theorem zero_mask_sentinel :
    (∀ (placements : List Nat) (b bound j : Nat), placements.get? j = some 0 →
      findMove placements b bound j = some (0, j)) ∧
    (backtrack 10 3 [3, 0, 12] [0, 3] = .noSolution ∧
      List.get? [3, 0, 12] 1 = some 0 ∧
      findMove [3, 0, 12] 3 3 1 = some (0, 1) ∧
      (12 : Nat) &&& 3 = 0 ∧
      ValidSelection 3 [3, 0, 12] [0, 3] [2]) := by
  constructor
  · intro placements b bound j h
    exact findMove_zero_entry placements b bound j h
  · decide

/-- Witness for C9's universal part, at the concrete zero entry. -/
theorem zero_mask_sentinel_witness :
    findMove [3, 0, 12] 7 3 1 = some (0, 1) :=
  zero_mask_sentinel.1 [3, 0, 12] 7 3 1 (by decide)

/-! ### DecodingBoard (src/entity.rs, From<EncodingBoard>) -/

/-- Helper `rev_i32_order` of the `From<EncodingBoard>` impl.  With
unbounded integers it is simply `x ↦ 1 - x` (the source's special case at
`i32::MIN` only works around fixed-width negation). -/
def rev_i32_order (x : Int) : Int := 1 - x

/-- The comparator of the `sort_by` call: lexicographic on
`(rev_i32_order y, x)`, i.e. `y` descending then `x` ascending, as a
non-strict relation. -/
def ptLE (a b : Point) : Prop :=
  rev_i32_order a.y < rev_i32_order b.y ∨
    (rev_i32_order a.y = rev_i32_order b.y ∧ a.x ≤ b.x)

instance : DecidableRel ptLE := fun a b =>
  inferInstanceAs (Decidable (rev_i32_order a.y < rev_i32_order b.y ∨
    (rev_i32_order a.y = rev_i32_order b.y ∧ a.x ≤ b.x)))

instance : IsTotal Point ptLE :=
  ⟨by
    intro a b
    unfold ptLE rev_i32_order
    omega⟩

instance : IsTrans Point ptLE :=
  ⟨by
    intro a b c
    unfold ptLE rev_i32_order
    omega⟩

/-- The `points.sort_by(...)` call.  Rust's stable sort is modeled by
insertion sort; on the boards in question the comparator is a total order
whose ties are exactly equal points, so every correct sort produces the
same list, and only sortedness and permutation are used below. -/
def sortPoints (pts : List Point) : List Point := List.insertionSort ptLE pts

/-- The row-grouping loop of `From<EncodingBoard> for DecodingBoard`
(src/entity.rs lines 257-277), recording only the `point_map` entries:
walk the sorted points carrying the previous `y`, the current row index
and the position inside the current row; on a `y` change start a new
row. -/
def buildMap : List Point → Option Int → Nat → Nat → List (Point × Nat × Nat)
  | [], _, _, _ => []
  | p :: ps, none, r, c => (p, r, c) :: buildMap ps (some p.y) r (c + 1)
  | p :: ps, some py, r, c =>
    if p.y = py then (p, r, c) :: buildMap ps (some py) r (c + 1)
    else (p, r + 1, 0) :: buildMap ps (some p.y) (r + 1) 1

/-- The `point_map` of a board: group the sorted points into rows. -/
def pointMapOf (pts : List Point) : List (Point × Nat × Nat) :=
  buildMap (sortPoints pts) none 0 0

/-- The `decoding` map construction: for every `(point, enc)` entry of the
encoding, look the point up in `point_map` (the `unwrap` panic is `none`)
and record `(enc, (row, col))`. -/
def decodingOf (pm : List (Point × Nat × Nat)) :
    List (Point × Nat) → Option (List (Nat × Nat × Nat))
  | [] => some []
  | (pt, e) :: rest =>
    match alookup pm pt with
    | none => none
    | some rc =>
      match decodingOf pm rest with
      | none => none
      | some d => some ((e, rc) :: d)

/-- Conversion `From<EncodingBoard> for DecodingBoard`, restricted to the
decoding map (the rendering grid is not modeled). -/
def DecodingBoard.ofEncoding (aabbs : List AABB) (m : List (Point × Nat)) :
    Option (List (Nat × Nat × Nat)) :=
  decodingOf (pointMapOf (boardPoints aabbs)) m

/-- Strict version of the sort order: `y` strictly descending, ties by
`x` strictly ascending. -/
def ptLt (a b : Point) : Prop := b.y < a.y ∨ (a.y = b.y ∧ a.x < b.x)

/-- The row index of a point under the specified layout: the number of
distinct `y` values of the board that are strictly greater. -/
def rowOfSpec (pts : List Point) (P : Point) : Nat :=
  (((pts.map Point.y).toFinset).filter (fun y => P.y < y)).card

/-- The column index of a point under the specified layout: the number of
board points in the same row (same `y`) strictly to its left. -/
def colOfSpec (pts : List Point) (P : Point) : Nat :=
  pts.countP (fun q => decide (q.y = P.y ∧ q.x < P.x))

theorem ptLt_irrefl (p : Point) : ¬ ptLt p p := by
  unfold ptLt
  omega

/-- Where the grouping loop sends each point of a sorted block: row
`r + (number of distinct y values, among the previous row's y and the
block, strictly above the point)`, column `c` continuing the previous
row's count when the point still lies on row `py`, else the number of
same-row points to its left. -/
theorem buildMap_lookup (s : List Point) : ∀ (py : Int) (r c : Nat),
    List.Pairwise ptLt s →
    (∀ q ∈ s, q.y ≤ py) →
    ∀ p ∈ s, alookup (buildMap s (some py) r c) p =
      some (r + ((insert py ((s.map Point.y).toFinset)).filter (fun y => p.y < y)).card,
        (if p.y = py then c else 0) +
          s.countP (fun q => decide (q.y = p.y ∧ q.x < p.x))) := by
  induction s with
  | nil =>
    intro py r c _ _ p hp
    exact absurd hp (by simp)
  | cons q s2 ih =>
    intro py r c hpw hbd p hp
    have hq_lt : ∀ t ∈ s2, ptLt q t := (List.pairwise_cons.mp hpw).1
    have hpw2 : List.Pairwise ptLt s2 := (List.pairwise_cons.mp hpw).2
    have hbdq : q.y ≤ py := hbd q (List.mem_cons_self _ _)
    have hbd2y : ∀ t ∈ s2, t.y ≤ q.y := by
      intro t ht
      rcases hq_lt t ht with h | ⟨h1, h2⟩
      · omega
      · omega
    have hys2 : ∀ y ∈ s2.map Point.y, y ≤ q.y := by
      intro y hy
      obtain ⟨t, ht, rfl⟩ := List.mem_map.mp hy
      exact hbd2y t ht
    have hcount_head : (q :: s2).countP (fun t => decide (t.y = q.y ∧ t.x < q.x)) = 0 := by
      rw [List.countP_eq_zero]
      intro t ht
      rcases List.mem_cons.mp ht with rfl | ht2
      · simp only [decide_eq_true_eq]
        omega
      · simp only [decide_eq_true_eq]
        rcases hq_lt t ht2 with h | ⟨h1, h2⟩
        · omega
        · omega
    by_cases hqy : q.y = py
    · -- the head continues row `py`
      rw [buildMap, if_pos hqy]
      obtain hpq | hp2 := List.mem_cons.mp hp
      · subst hpq
        rw [alookup, if_pos rfl]
        have hX : ((insert py (((p :: s2).map Point.y).toFinset)).filter
            (fun y => p.y < y)).card = 0 := by
          rw [Finset.card_eq_zero, Finset.filter_eq_empty_iff]
          intro y hy
          simp only [List.map_cons, List.toFinset_cons, Finset.mem_insert,
            List.mem_toFinset] at hy
          rcases hy with rfl | rfl | hy
          · omega
          · omega
          · have := hys2 y hy
            omega
        rw [hX, if_pos hqy, hcount_head]
        simp
      · have hqp : q ≠ p := fun heq => ptLt_irrefl p (heq ▸ hq_lt p hp2)
        rw [alookup, if_neg hqp,
          ih py r (c + 1) hpw2 (fun t ht => hbd t (List.mem_cons_of_mem _ ht)) p hp2]
        have hins : insert py (((q :: s2).map Point.y).toFinset) =
            insert py ((s2.map Point.y).toFinset) := by
          simp only [List.map_cons, List.toFinset_cons]
          rw [hqy, Finset.insert_idem]
        rw [hins, List.countP_cons]
        by_cases hpy2 : p.y = py
        · have hqx : q.x < p.x := by
            rcases hq_lt p hp2 with h | ⟨h1, h2⟩
            · omega
            · exact h2
          have hpredq : decide (q.y = p.y ∧ q.x < p.x) = true := by
            simp only [decide_eq_true_eq]
            exact ⟨by omega, hqx⟩
          rw [if_pos hpy2, if_pos hpy2, if_pos hpredq]
          simp only [Option.some.injEq, Prod.mk.injEq]
          exact ⟨trivial, by omega⟩
        · have hpredq : ¬ (decide (q.y = p.y ∧ q.x < p.x) = true) := by
            simp only [decide_eq_true_eq]
            omega
          rw [if_neg hpy2, if_neg hpy2, if_neg hpredq]
          simp only [Option.some.injEq, Prod.mk.injEq]
          exact ⟨trivial, by omega⟩
    · -- the head starts a new row
      have hqylt : q.y < py := by omega
      rw [buildMap, if_neg hqy]
      obtain hpq | hp2 := List.mem_cons.mp hp
      · subst hpq
        rw [alookup, if_pos rfl]
        have hfilter : (insert py (((p :: s2).map Point.y).toFinset)).filter
            (fun y => p.y < y) = {py} := by
          ext y
          simp only [Finset.mem_filter, Finset.mem_insert, List.map_cons,
            List.toFinset_cons, List.mem_toFinset, Finset.mem_singleton]
          constructor
          · rintro ⟨h1 | h1 | h1, h2⟩
            · exact h1
            · omega
            · have := hys2 y h1
              omega
          · rintro rfl
            exact ⟨Or.inl rfl, by omega⟩
        rw [hfilter, Finset.card_singleton, if_neg hqy, hcount_head]
      · have hqp : q ≠ p := fun heq => ptLt_irrefl p (heq ▸ hq_lt p hp2)
        have hple : p.y ≤ q.y := hbd2y p hp2
        have hppy : ¬ p.y = py := by omega
        rw [alookup, if_neg hqp, ih q.y (r + 1) 1 hpw2 hbd2y p hp2]
        have hpy_not_mem : py ∉ (insert q.y ((s2.map Point.y).toFinset)).filter
            (fun y => p.y < y) := by
          simp only [Finset.mem_filter, Finset.mem_insert, List.mem_toFinset]
          rintro ⟨h1 | h1, h2⟩
          · omega
          · have := hys2 py h1
            omega
        have hcard : ((insert py (((q :: s2).map Point.y).toFinset)).filter
              (fun y => p.y < y)).card =
            ((insert q.y ((s2.map Point.y).toFinset)).filter
              (fun y => p.y < y)).card + 1 := by
          simp only [List.map_cons, List.toFinset_cons]
          rw [Finset.filter_insert, if_pos (show p.y < py by omega),
            Finset.card_insert_of_not_mem hpy_not_mem]
        rw [hcard, if_neg hppy, List.countP_cons]
        by_cases hpy2 : p.y = q.y
        · have hqx : q.x < p.x := by
            rcases hq_lt p hp2 with h | ⟨h1, h2⟩
            · omega
            · exact h2
          have hpredq : decide (q.y = p.y ∧ q.x < p.x) = true := by
            simp only [decide_eq_true_eq]
            exact ⟨by omega, hqx⟩
          rw [if_pos hpy2, if_pos hpredq]
          simp only [Option.some.injEq, Prod.mk.injEq]
          exact ⟨by omega, by omega⟩
        · have hpredq : ¬ (decide (q.y = p.y ∧ q.x < p.x) = true) := by
            simp only [decide_eq_true_eq]
            omega
          rw [if_neg hpy2, if_neg hpredq]
          simp only [Option.some.injEq, Prod.mk.injEq]
          exact ⟨by omega, by omega⟩

theorem buildMap_keys : ∀ (s : List Point) (py : Option Int) (r c : Nat),
    (buildMap s py r c).map Prod.fst = s := by
  intro s
  induction s with
  | nil =>
    intro py r c
    cases py <;> rfl
  | cons q s2 ih =>
    intro py r c
    cases py with
    | none =>
      rw [buildMap, List.map_cons, ih]
    | some py0 =>
      rw [buildMap]
      by_cases h : q.y = py0
      · rw [if_pos h, List.map_cons, ih]
      · rw [if_neg h, List.map_cons, ih]

/-- The grouping of the sorted board points realizes the specified layout:
each board point is mapped to (number of distinct `y` values above it,
number of same-row points to its left). -/
theorem pointMap_lookup (pts : List Point) (hnd : pts.Nodup) (P : Point) (hP : P ∈ pts) :
    alookup (pointMapOf pts) P = some (rowOfSpec pts P, colOfSpec pts P) := by
  unfold pointMapOf sortPoints
  have hperm : (List.insertionSort ptLE pts).Perm pts := List.perm_insertionSort ptLE pts
  have hsorted : List.Pairwise ptLE (List.insertionSort ptLE pts) :=
    List.sorted_insertionSort ptLE pts
  have hndS : (List.insertionSort ptLE pts).Nodup := (hperm.nodup_iff).mpr hnd
  have hlt : List.Pairwise ptLt (List.insertionSort ptLE pts) := by
    have hcomb := List.Pairwise.and hsorted hndS
    apply hcomb.imp
    rintro a b ⟨hle, hne⟩
    unfold ptLE rev_i32_order at hle
    unfold ptLt
    rcases hle with h | ⟨h1, h2⟩
    · left
      omega
    · right
      have hyeq : a.y = b.y := by omega
      refine ⟨hyeq, ?_⟩
      rcases eq_or_lt_of_le h2 with heq | hlt2
      · exact absurd (show a = b by
          cases a
          cases b
          simp only [Point.mk.injEq]
          exact ⟨heq, hyeq⟩) hne
      · exact hlt2
  have hys_perm : ((List.insertionSort ptLE pts).map Point.y).toFinset =
      (pts.map Point.y).toFinset :=
    List.toFinset_eq_of_perm _ _ (hperm.map Point.y)
  have hcnt_perm : ∀ f : Point → Bool,
      (List.insertionSort ptLE pts).countP f = pts.countP f := fun f => hperm.countP_eq f
  have hPs : P ∈ List.insertionSort ptLE pts := hperm.mem_iff.mpr hP
  cases hs2 : List.insertionSort ptLE pts with
  | nil =>
    rw [hs2] at hPs
    exact absurd hPs (by simp)
  | cons q s2 =>
    rw [hs2] at hlt hPs hys_perm hcnt_perm
    have hq_lt : ∀ t ∈ s2, ptLt q t := (List.pairwise_cons.mp hlt).1
    have hpw2 : List.Pairwise ptLt s2 := (List.pairwise_cons.mp hlt).2
    have hbd2y : ∀ t ∈ s2, t.y ≤ q.y := by
      intro t ht
      rcases hq_lt t ht with h | ⟨h1, h2⟩
      · omega
      · omega
    have hys2 : ∀ y ∈ s2.map Point.y, y ≤ q.y := by
      intro y hy
      obtain ⟨t, ht, rfl⟩ := List.mem_map.mp hy
      exact hbd2y t ht
    rw [buildMap]
    obtain hpq | hp2 := List.mem_cons.mp hPs
    · subst hpq
      rw [alookup, if_pos rfl]
      have hrow : rowOfSpec pts P = 0 := by
        unfold rowOfSpec
        rw [← hys_perm]
        rw [Finset.card_eq_zero, Finset.filter_eq_empty_iff]
        intro y hy
        simp only [List.map_cons, List.toFinset_cons, Finset.mem_insert,
          List.mem_toFinset] at hy
        rcases hy with rfl | hy
        · omega
        · have := hys2 y hy
          omega
      have hcol : colOfSpec pts P = 0 := by
        unfold colOfSpec
        rw [← hcnt_perm]
        rw [List.countP_eq_zero]
        intro t ht
        rcases List.mem_cons.mp ht with rfl | ht2
        · simp only [decide_eq_true_eq]
          omega
        · simp only [decide_eq_true_eq]
          rcases hq_lt t ht2 with h | ⟨h1, h2⟩
          · omega
          · omega
      rw [hrow, hcol]
    · have hqp : q ≠ P := fun heq => ptLt_irrefl P (heq ▸ hq_lt P hp2)
      rw [alookup, if_neg hqp,
        buildMap_lookup s2 q.y 0 1 hpw2 hbd2y P hp2]
      have hrow : rowOfSpec pts P =
          ((insert q.y ((s2.map Point.y).toFinset)).filter (fun y => P.y < y)).card := by
        unfold rowOfSpec
        rw [← hys_perm]
        simp only [List.map_cons, List.toFinset_cons]
      have hcol : colOfSpec pts P =
          (if P.y = q.y then 1 else 0) +
            s2.countP (fun t => decide (t.y = P.y ∧ t.x < P.x)) := by
        unfold colOfSpec
        rw [← hcnt_perm, List.countP_cons]
        by_cases hpy : P.y = q.y
        · have hqx : q.x < P.x := by
            rcases hq_lt P hp2 with h | ⟨h1, h2⟩
            · omega
            · exact h2
          rw [if_pos hpy, if_pos (by simp only [decide_eq_true_eq]; exact ⟨by omega, hqx⟩)]
          omega
        · rw [if_neg hpy, if_neg (by simp only [decide_eq_true_eq]; omega)]
          omega
      rw [hrow, hcol, Nat.zero_add]

theorem decodingOf_eq (pm : List (Point × Nat × Nat)) :
    ∀ (m : List (Point × Nat)),
    (∀ pe ∈ m, (alookup pm pe.1).isSome) →
    decodingOf pm m =
      some (m.map (fun pe => (pe.2, (alookup pm pe.1).getD (0, 0)))) := by
  intro m
  induction m with
  | nil =>
    intro _
    rfl
  | cons pe rest ih =>
    intro h
    obtain ⟨pt, e⟩ := pe
    have h1 := h (pt, e) (List.mem_cons_self _ _)
    obtain ⟨rc, hrc⟩ := Option.isSome_iff_exists.mp h1
    rw [decodingOf, hrc, ih (fun x hx => h x (List.mem_cons_of_mem _ hx))]
    simp [hrc]

theorem alookup_decoding {m : List (Point × Nat)} {g : Point → Nat × Nat}
    {P : Point} {e : Nat}
    (hnd : (m.map Prod.snd).Nodup) (hmem : (P, e) ∈ m) :
    alookup (m.map (fun pe => (pe.2, g pe.1))) e = some (g P) := by
  induction m with
  | nil => exact absurd hmem (by simp)
  | cons pe rest ih =>
    obtain ⟨pt0, e0⟩ := pe
    simp only [List.map_cons, List.nodup_cons] at hnd
    rcases List.mem_cons.mp hmem with heq | hmem2
    · rw [Prod.mk.injEq] at heq
      obtain ⟨rfl, rfl⟩ := heq
      simp [alookup]
    · have hne : e0 ≠ e := by
        intro h
        subst h
        exact hnd.1 (List.mem_map.mpr ⟨(P, e0), hmem2, rfl⟩)
      rw [List.map_cons, alookup, if_neg hne]
      exact ih hnd.2 hmem2

/-- C8: for every point `P` of a successfully constructed board, encoding
the single-point set `{P}` succeeds and looking the resulting mask up in
the decoding map built from that board yields exactly the `(row, column)`
cell of `P` under the layout with rows ordered by `y` descending and cells
within a row by `x` ascending (`rowOfSpec` / `colOfSpec`). -/
theorem decoding_roundtrip (aabbs : List AABB) (m : List (Point × Nat)) (P : Point)
    (hnew : EncodingBoard.new aabbs = some m) (hP : P ∈ boardPoints aabbs) :
    ∃ e d, encode m [P] = some e ∧
      DecodingBoard.ofEncoding aabbs m = some d ∧
      alookup d e =
        some (rowOfSpec (boardPoints aabbs) P, colOfSpec (boardPoints aabbs) P) := by
  have hm1 : encBuild (boardPoints aabbs) (2 ^ 0 % 2 ^ 64) [] = some m := by
    rwa [show 2 ^ 0 % 2 ^ 64 = 1 by norm_num]
  obtain ⟨hb, hfst, hndkeys, hsnd⟩ :=
    encBuild_success (boardPoints aabbs) 0 [] m hm1 (by simp)
  have hfst2 : m.map Prod.fst = (boardPoints aabbs).reverse := by simpa using hfst
  have hndpts : (boardPoints aabbs).Nodup := by
    have h := hndkeys
    rw [hfst2, List.nodup_reverse] at h
    exact h
  have hsnd2 : m.map Prod.snd =
      ((List.range (boardPoints aabbs).length).map (fun (k : Nat) => 2 ^ k)).reverse := by
    simpa using hsnd
  have hsndnd : (m.map Prod.snd).Nodup := by
    rw [hsnd2, List.nodup_reverse]
    exact (List.nodup_range _).map (Nat.pow_right_injective (le_refl 2))
  have hsome : (alookup m P).isSome := by
    rw [alookup_isSome, hfst2, List.mem_reverse]
    exact hP
  obtain ⟨e, he⟩ := Option.isSome_iff_exists.mp hsome
  have hPe : (P, e) ∈ m := alookup_mem he
  have hkeys_pm : ∀ pe ∈ m, (alookup (pointMapOf (boardPoints aabbs)) pe.1).isSome := by
    intro pe hpe
    have hmem : pe.1 ∈ m.map Prod.fst := List.mem_map.mpr ⟨pe, hpe, rfl⟩
    rw [hfst2, List.mem_reverse] at hmem
    rw [alookup_isSome]
    unfold pointMapOf
    rw [buildMap_keys]
    exact (List.perm_insertionSort ptLE (boardPoints aabbs)).mem_iff.mpr hmem
  have hd : DecodingBoard.ofEncoding aabbs m =
      some (m.map (fun pe =>
        (pe.2, (alookup (pointMapOf (boardPoints aabbs)) pe.1).getD (0, 0)))) :=
    decodingOf_eq (pointMapOf (boardPoints aabbs)) m hkeys_pm
  have henc : encode m [P] = some e := by
    have hval : encode m [P] = alookup m P := rfl
    rw [hval]
    exact he
  have halk : alookup (m.map (fun pe =>
      (pe.2, (alookup (pointMapOf (boardPoints aabbs)) pe.1).getD (0, 0)))) e =
      some (rowOfSpec (boardPoints aabbs) P, colOfSpec (boardPoints aabbs) P) := by
    have h := @alookup_decoding m
      (fun pt => (alookup (pointMapOf (boardPoints aabbs)) pt).getD (0, 0)) P e hsndnd hPe
    simp only [] at h
    rw [pointMap_lookup (boardPoints aabbs) hndpts P hP] at h
    simpa using h
  exact ⟨e, _, henc, hd, halk⟩

/-- Witness for C8: the 2×2 board from corners (0,0) and (1,1); the point
(1,0) sits in row 1 (one distinct `y` above it), column 1 (one same-row
point left of it). -/
theorem decoding_roundtrip_witness :
    EncodingBoard.new [⟨⟨0,0⟩, ⟨1,1⟩⟩] =
      some [((⟨1,1⟩ : Point), (8:Nat)), (⟨1,0⟩, 4), (⟨0,1⟩, 2), (⟨0,0⟩, 1)] ∧
    (⟨1,0⟩ : Point) ∈ boardPoints [⟨⟨0,0⟩, ⟨1,1⟩⟩] ∧
    (∃ e d,
      encode [((⟨1,1⟩ : Point), (8:Nat)), (⟨1,0⟩, 4), (⟨0,1⟩, 2), (⟨0,0⟩, 1)]
        [⟨1,0⟩] = some e ∧
      DecodingBoard.ofEncoding [⟨⟨0,0⟩, ⟨1,1⟩⟩]
        [((⟨1,1⟩ : Point), (8:Nat)), (⟨1,0⟩, 4), (⟨0,1⟩, 2), (⟨0,0⟩, 1)] = some d ∧
      alookup d e =
        some (rowOfSpec (boardPoints [⟨⟨0,0⟩, ⟨1,1⟩⟩]) ⟨1,0⟩,
          colOfSpec (boardPoints [⟨⟨0,0⟩, ⟨1,1⟩⟩]) ⟨1,0⟩)) :=
  ⟨by decide, by decide,
    decoding_roundtrip [⟨⟨0,0⟩, ⟨1,1⟩⟩]
      [((⟨1,1⟩ : Point), (8:Nat)), (⟨1,0⟩, 4), (⟨0,1⟩, 2), (⟨0,0⟩, 1)]
      ⟨1,0⟩ (by decide) (by decide)⟩

end DatePuzzle
